import Mathlib

/-!
Verification of ChampSim's `config/filewrite.py`.

The file is shallowly embedded below: Python strings are Lean `String`s
(with list-of-`Char` reasoning where needed), the filesystem is a partial
map from path strings to file contents, iterators and generators are
`List`s, and `difflib.SequenceMatcher`'s similarity ratio (as used with
`isjunk=None`) is modelled exactly as an exact rational; Python's float
division is modelled by exact rational division.
-/

namespace FileWrite

/-! ### Python string primitives -/

/-- Python `str.strip()` on a character list: remove leading and trailing
whitespace characters. -/
def stripChars (l : List Char) : List Char :=
  ((l.dropWhile Char.isWhitespace).reverse.dropWhile Char.isWhitespace).reverse

/-- Python `str.strip()` (no argument: strip whitespace on both ends;
`Char.isWhitespace` models Python's whitespace class — they agree on the
space, tab, newline and carriage-return characters generated files
contain). -/
def pyStrip (s : String) : String := String.mk (stripChars s.data)

/-- The chunks of a character stream as Python file iteration yields them:
each chunk retains the `'\n'` that terminated it; the final chunk may lack
a terminator.  An empty stream yields no chunks. -/
def lineChunks : List Char → List (List Char)
  | [] => []
  | c :: cs =>
    if c = '\n' then ['\n'] :: lineChunks cs
    else match lineChunks cs with
      | [] => [[c]]
      | chunk :: rest => (c :: chunk) :: rest

/-- Remove a single trailing `'\n'` from a chunk, if present. -/
def dropNl (l : List Char) : List Char :=
  match l.reverse with
  | c :: r => if c = '\n' then r.reverse else l
  | [] => l

/-- Python `str.splitlines()` (for `'\n'`-terminated text, the only line
terminator these generated files contain): line chunks with their
terminators removed. -/
def pySplitlines (s : String) : List String :=
  (lineChunks s.data).map (fun cs => String.mk (dropNl cs))

/-- The lines produced by iterating over an open text file in Python
(`for l in rfp`): line chunks with their terminators kept. -/
def pyIterLines (s : String) : List String :=
  (lineChunks s.data).map String.mk

/-- Python `'\n'.join(...)`. -/
def pyJoin : List String → String
  | [] => ""
  | [x] => x
  | x :: y :: xs => x ++ "\n" ++ pyJoin (y :: xs)

/-! ### `difflib.SequenceMatcher` (CPython, `isjunk=None`, `autojunk=True`)

`files_are_different` compares two lists of stripped lines with
`difflib.SequenceMatcher(a=..., b=...).ratio() < 1`.  The model below
follows CPython's `difflib.py`: with `isjunk=None` the junk set `bjunk`
is empty (so the junk-extension `while` loops of `find_longest_match`
never run and are omitted), while `autojunk` removes *popular* elements
of `b` (appearing more than `len(b)//100 + 1` times when `len(b) >= 200`)
from the position index `b2j`. -/

variable {α : Type} [DecidableEq α]

/-- An element of `b` is "popular" (autojunk): `b` has at least 200
elements and the element occurs more than `len(b) // 100 + 1` times.
Popular elements are removed from `b2j`. -/
def popularElt (b : List α) (x : α) : Bool :=
  decide (200 ≤ b.length) && decide (b.length / 100 + 1 < b.count x)

/-- `j ∈ b2j.get(a[i], [])`, restricted to `blo ≤ j < bhi` and
`alo ≤ i < ahi`: position `j` of `b` holds the same (non-popular) element
as position `i` of `a` and both indices lie in the current region.  These
are exactly the pairs the inner loop of `find_longest_match` processes. -/
def hit (a b : List α) (alo ahi blo bhi i j : Nat) : Bool :=
  decide (alo ≤ i) && decide (i < ahi) && decide (blo ≤ j) && decide (j < bhi) &&
  (match a[i]?, b[j]? with
   | some x, some y => decide (x = y) && !(popularElt b x)
   | _, _ => false)

/-- The run length `k = newj2len[j] = j2len.get(j-1, 0) + 1` computed by
`find_longest_match` for the pair `(i, j)`: `j2len` memoizes this value
from the previous iteration of the outer loop. -/
def runLen (a b : List α) (alo ahi blo bhi : Nat) : Nat → Nat → Nat
  | 0, j => if hit a b alo ahi blo bhi 0 j then 1 else 0
  | i+1, j =>
    if hit a b alo ahi blo bhi (i+1) j then
      (if alo < i + 1 ∧ blo < j then runLen a b alo ahi blo bhi i (j-1) else 0) + 1
    else 0

/-- One step of the best-match scan: `if k > bestsize: besti, bestj,
bestsize = i-k+1, j-k+1, k`.  Pairs that are not hits have `runLen = 0`
and never update the best (the source simply does not visit them). -/
def stepBest (a b : List α) (alo ahi blo bhi i : Nat)
    (best : Nat × Nat × Nat) (j : Nat) : Nat × Nat × Nat :=
  let k := runLen a b alo ahi blo bhi i j
  if best.2.2 < k then (i + 1 - k, j + 1 - k, k) else best

/-- The inner loop of `find_longest_match` at row `i`: scan `j` ascending
over `[blo, bhi)`. -/
def innerLoop (a b : List α) (alo ahi blo bhi i : Nat)
    (best : Nat × Nat × Nat) : Nat × Nat × Nat :=
  (List.range' blo (bhi - blo)).foldl (stepBest a b alo ahi blo bhi i) best

/-- The nested scanning loops of `find_longest_match`: `i` ascending over
`[alo, ahi)`, starting from `besti, bestj, bestsize = alo, blo, 0`. -/
def bestLoop (a b : List α) (alo ahi blo bhi : Nat) : Nat × Nat × Nat :=
  (List.range' alo (ahi - alo)).foldl
    (fun best i => innerLoop a b alo ahi blo bhi i best) (alo, blo, 0)

/-- `a[i] == b[j]` for in-range indices (out-of-range accesses do not
occur at call sites; the model makes them compare unequal). -/
def pairMatch (a b : List α) (i j : Nat) : Bool :=
  match a[i]?, b[j]? with
  | some x, some y => decide (x = y)
  | _, _ => false

/-- The downward extension loop: `while besti > alo and bestj > blo and
a[besti-1] == b[bestj-1]` (the `not isbjunk(...)` conjunct is `True`
because `bjunk` is empty for `isjunk=None`). -/
def extLo (a b : List α) (alo blo : Nat) : Nat → Nat → Nat → Nat × Nat × Nat
  | 0, bestj, bestsize => (0, bestj, bestsize)
  | besti+1, bestj, bestsize =>
    if alo < besti + 1 ∧ blo < bestj ∧ pairMatch a b besti (bestj - 1) then
      extLo a b alo blo besti (bestj - 1) (bestsize + 1)
    else (besti + 1, bestj, bestsize)

/-- The upward extension loop: `while besti+bestsize < ahi and
bestj+bestsize < bhi and a[besti+bestsize] == b[bestj+bestsize]:
bestsize += 1` (again `not isbjunk(...)` is `True`). -/
def extHi (a b : List α) (ahi bhi besti bestj : Nat) (bestsize : Nat) :
    Nat × Nat × Nat :=
  if h : besti + bestsize < ahi ∧ bestj + bestsize < bhi ∧
      pairMatch a b (besti + bestsize) (bestj + bestsize) then
    extHi a b ahi bhi besti bestj (bestsize + 1)
  else (besti, bestj, bestsize)
  termination_by ahi - (besti + bestsize)
  decreasing_by omega

/-- `SequenceMatcher.find_longest_match(alo, ahi, blo, bhi)`: the nested
scan, then the two non-junk extension loops.  The junk extension loops are
no-ops (`bjunk = ∅`). -/
def find_longest_match (a b : List α) (alo ahi blo bhi : Nat) : Nat × Nat × Nat :=
  let best := bestLoop a b alo ahi blo bhi
  let best := extLo a b alo blo best.1 best.2.1 best.2.2
  extHi a b ahi bhi best.1 best.2.1 best.2.2

/-- Total size of all matching blocks found by
`SequenceMatcher.get_matching_blocks` on a region (the LIFO work queue of
the source visits exactly the recursive subregions below; only the sum of
block sizes is needed for `ratio`, and the final merge of adjacent blocks
preserves it).  The `fuel` argument bounds the recursion depth; any
`fuel > (ahi - alo) + (bhi - blo)` is sufficient (each recursive call
strictly shrinks the region). -/
def matchesCnt (a b : List α) : Nat → Nat → Nat → Nat → Nat → Nat
  | 0, _, _, _, _ => 0
  | fuel+1, alo, ahi, blo, bhi =>
    let m := find_longest_match a b alo ahi blo bhi
    if m.2.2 = 0 then 0
    else
      (if alo < m.1 ∧ blo < m.2.1 then matchesCnt a b fuel alo m.1 blo m.2.1 else 0)
      + m.2.2 +
      (if m.1 + m.2.2 < ahi ∧ m.2.1 + m.2.2 < bhi then
        matchesCnt a b fuel (m.1 + m.2.2) ahi (m.2.1 + m.2.2) bhi else 0)

/-- `sum(triple[-1] for triple in self.get_matching_blocks())` for the
full sequences. -/
def seqMatches (a b : List α) : Nat :=
  matchesCnt a b (a.length + b.length + 1) 0 a.length 0 b.length

/-- `SequenceMatcher.ratio()`: `2.0 * matches / (len(a) + len(b))`, or
`1.0` when both sequences are empty. -/
def seqRatio (a b : List α) : ℚ :=
  if a.length + b.length = 0 then 1
  else (2 * seqMatches a b : ℚ) / (a.length + b.length)

/-- `files_are_different(rfp, new_rfp)` from `filewrite.py`: strip every
line of both iterables and compare with `SequenceMatcher(...).ratio() < 1`. -/
def files_are_different (rfp new_rfp : List String) : Bool :=
  decide (seqRatio (rfp.map pyStrip) (new_rfp.map pyStrip) < 1)

/-- A candidate best match `(besti, bestj, bestsize)` that lies inside the
region and matches pointwise; every intermediate state of
`find_longest_match` satisfies this. -/
def ValidBest (a b : List α) (alo ahi blo bhi : Nat) (best : Nat × Nat × Nat) : Prop :=
  alo ≤ best.1 ∧ blo ≤ best.2.1 ∧ best.1 + best.2.2 ≤ ahi ∧ best.2.1 + best.2.2 ≤ bhi ∧
  ∀ t < best.2.2, pairMatch a b (best.1 + t) (best.2.1 + t) = true


/-! ### The filesystem and `write_if_different` -/

/-- The filesystem model: a partial map from paths to text-file contents.
Directories are not modelled (`os.makedirs` only affects them). -/
def FS : Type := String → Option String

/-- Writing a file replaces its whole content. -/
def updateFS (fs : FS) (p c : String) : FS :=
  fun q => if q = p then some c else fs q

/-- `write_if_different(fname, new_file_string)`: if the file exists,
compare its iterated lines against `new_file_string.splitlines()` with
`files_are_different`; write only when the file is absent or different.
Returns the new filesystem and whether a write occurred. -/
def write_if_different (fs : FS) (fname new_file_string : String) : FS × Bool :=
  let should_write :=
    match fs fname with
    | none => true
    | some old => files_are_different (pyIterLines old) (pySplitlines new_file_string)
  if should_write then (updateFS fs fname new_file_string, true) else (fs, false)

/-! ### Banners, `os.path.splitext`, and `FileWriter.finish` -/

/-- The extension component of `os.path.splitext` (POSIX rules): the
suffix starting at the last `'.'` of the basename, except that an
extension never starts at a leading run of dots of the basename. -/
def splitextExt (p : String) : String :=
  let baseRev := p.data.reverse.takeWhile (· ≠ '/')
  match baseRev.findIdx? (· = '.') with
  | none => ""
  | some i =>
    if (baseRev.drop (i + 1)).any (· ≠ '.') then
      String.mk ((baseRev.take (i + 1)).reverse)
    else ""

/-- Path segments: the components of a `'/'`-separated path (the list
`p.split('/')` would give). -/
def segsOf : List Char → List (List Char)
  | [] => [[]]
  | c :: cs =>
    if c = '/' then [] :: segsOf cs
    else match segsOf cs with
      | [] => [[c]]
      | seg :: rest => (c :: seg) :: rest

/-- The `'/'`-separated segments of a path string. -/
def pathSegments (p : String) : List String := (segsOf p.data).map String.mk

/-- `cxx_generated_warning` from `filewrite.py` (a 5-line tuple). -/
def cxx_generated_warning : List String :=
  ["/***",
   " * THIS FILE IS AUTOMATICALLY GENERATED",
   " * Do not edit this file. It will be overwritten when the configure script is run.",
   " ***/",
   ""]

/-- `make_generated_warning` from `filewrite.py` (a 5-line tuple). -/
def make_generated_warning : List String :=
  ["###",
   "# THIS FILE IS AUTOMATICALLY GENERATED",
   "# Do not edit this file. It will be overwritten when the configure script is run.",
   "###",
   ""]

/-- The `contents_with_header` iterator built by `FileWriter.finish` for
one group: a banner chosen by the path's extension, then the group's line
sequences chained in order. -/
def contents_with_header (fname : String) (fcontents : List (String × List String)) :
    List String :=
  if splitextExt fname ∈ ([".cc", ".h", ".inc"] : List String) then
    cxx_generated_warning ++ (fcontents.map Prod.snd).flatten
  else if splitextExt fname ∈ ([".mk"] : List String) then
    make_generated_warning ++ (fcontents.map Prod.snd).flatten
  else
    (fcontents.map Prod.snd).flatten

/-- Python's `sorted(self.fileparts, key=operator.itemgetter(0))`.
Python's sort is stable; a stable sort by a given key order is
extensionally unique, and `List.insertionSort` with this relation is that
stable sort. -/
def pySortedByPath (l : List (String × List String)) : List (String × List String) :=
  List.insertionSort (fun x y => x.1 ≤ y.1) l

/-- `itertools.groupby` on the path component: split into maximal runs of
adjacent pairs with equal path. -/
def runsByPath : List (String × List String) → List (List (String × List String))
  | [] => []
  | x :: xs =>
    match runsByPath xs with
    | [] => [[x]]
    | [] :: rest => [x] :: rest
    | (y :: ys) :: rest =>
      if x.1 = y.1 then (x :: y :: ys) :: rest else [x] :: (y :: ys) :: rest

/-- The `(fname, '\n'.join(contents_with_header))` pairs `finish` writes,
one per group, in group order. -/
def finishOutputs (fileparts : List (String × List String)) : List (String × String) :=
  (runsByPath (pySortedByPath fileparts)).filterMap (fun g =>
    match g with
    | [] => none
    | (fname, _) :: _ => some (fname, pyJoin (contents_with_header fname g)))

/-- One conditional write of `finish`, threading the filesystem and
counting performed writes. -/
def writeStep (st : FS × Nat) (out : String × String) : FS × Nat :=
  let res := write_if_different st.1 out.1 out.2
  (res.1, st.2 + if res.2 then 1 else 0)

/-- `FileWriter.finish`: group the accumulated fileparts by path (stable
sort, then maximal runs of equal path), build each group's decorated
content, and write it through `write_if_different`.  Returns the new
filesystem and the number of files actually written.

Each fragment's `List String` records the lines its one-shot line source
yields when `finish` traverses it — faithful for a single flush.  The
fileparts of the Python writer hold *generators* (`get_map_lines` is a
generator function, and every collaborator sequence is lazy and
non-restartable), so a repeated flush does not see these lines again:
the writer's state as a second traversal observes it is
`exhaustedParts` below. -/
def finish (fileparts : List (String × List String)) (fs : FS) : FS × Nat :=
  (finishOutputs fileparts).foldl writeStep (fs, 0)

/-- The accumulated fileparts as a second `finish` sees them: the
`(path, lines)` tuples are unchanged, but every fragment's one-shot
generator was exhausted by the first flush, so iterating it again yields
no lines. -/
def exhaustedParts (fileparts : List (String × List String)) :
    List (String × List String) :=
  fileparts.map (fun x => (x.1, []))

/-! ### `hashlib.shake_128(data).hexdigest(4)` (FIPS 202 SHAKE128)

`write_files` derives the build identifier as
`hashlib.shake_128(json.dumps(parsed_config).encode('utf-8')).hexdigest(4)`.
The Keccak permutation and sponge are modelled below on `Nat` lanes
reduced modulo `2^64`. -/

/-- 64-bit left rotation (on lane values `< 2^64`). -/
def rotl64 (x n : Nat) : Nat :=
  ((x <<< n) % 2 ^ 64) ||| (x >>> (64 - n))

/-- 64-bit bitwise complement. -/
def not64 (x : Nat) : Nat := Nat.xor x (2 ^ 64 - 1)

/-- The bit `rc(t)` of FIPS 202: the low bit of an 8-bit LFSR
(`x^8 + x^6 + x^5 + x^4 + 1`) started at `1` and stepped `t` times. -/
def keccakRcBit (t : Nat) : Nat :=
  ((List.range t).foldl
    (fun R _ =>
      let R2 := R <<< 1
      if 256 ≤ R2 then Nat.xor R2 0x171 else R2) 1) % 2

/-- The round constant of round `ir`: bits `rc(j + 7*ir)` placed at
positions `2^j - 1` for `j = 0, …, 6`. -/
def keccakRCval (ir : Nat) : Nat :=
  (List.range 7).foldl
    (fun acc j => acc + keccakRcBit (j + 7 * ir) * 2 ^ (2 ^ j - 1)) 0

/-- The ρ rotation schedule of FIPS 202 as `(lane index, offset)` pairs:
starting from lane `(1, 0)`, step `t` rotates lane `x + 5*y` by
`(t+1)(t+2)/2 mod 64`, then moves to `(y, (2x + 3y) mod 5)`. -/
def keccakRhoPairs : List (Nat × Nat) :=
  (((List.range 24).foldl
    (fun (st : (Nat × Nat) × List (Nat × Nat)) t =>
      let x := st.1.1
      let y := st.1.2
      ((y, (2 * x + 3 * y) % 5),
        (x + 5 * y, (t + 1) * (t + 2) / 2 % 64) :: st.2))
    ((1, 0), [])).2)

/-- The rotation offset of lane `i` (lane `(0,0)` is never rotated). -/
def keccakRotOf (i : Nat) : Nat :=
  ((keccakRhoPairs.find? (fun pr => pr.1 == i)).map Prod.snd).getD 0

/-- Keccak θ step on the 25-lane state. -/
def keccakTheta (A : List Nat) : List Nat :=
  let C := (List.range 5).map (fun x =>
    Nat.xor (Nat.xor (Nat.xor (Nat.xor (A.getD x 0) (A.getD (x + 5) 0))
      (A.getD (x + 10) 0)) (A.getD (x + 15) 0)) (A.getD (x + 20) 0))
  let D := (List.range 5).map (fun x =>
    Nat.xor (C.getD ((x + 4) % 5) 0) (rotl64 (C.getD ((x + 1) % 5) 0) 1))
  (List.range 25).map (fun i => Nat.xor (A.getD i 0) (D.getD (i % 5) 0))

/-- Keccak ρ and π steps: `B[y, (2x+3y) % 5] = rotl(A[x, y], r[x, y])`,
written as a gather over the target index. -/
def keccakRhoPi (A : List Nat) : List Nat :=
  (List.range 25).map (fun i =>
    let src := (i % 5 + 3 * (i / 5)) % 5 + 5 * (i % 5)
    rotl64 (A.getD src 0) (keccakRotOf src))

/-- Keccak χ step. -/
def keccakChi (B : List Nat) : List Nat :=
  (List.range 25).map (fun i =>
    let x := i % 5
    let y5 := i - x
    Nat.xor (B.getD i 0)
      (Nat.land (not64 (B.getD ((x + 1) % 5 + y5) 0)) (B.getD ((x + 2) % 5 + y5) 0)))

/-- One Keccak round (θ, ρ, π, χ, ι). -/
def keccakRound (A : List Nat) (rnd : Nat) : List Nat :=
  match keccakChi (keccakRhoPi (keccakTheta A)) with
  | [] => []
  | a0 :: rest => Nat.xor a0 (keccakRCval rnd) :: rest

/-- The Keccak-f[1600] permutation: 24 rounds. -/
def keccakF (A : List Nat) : List Nat := (List.range 24).foldl keccakRound A

/-- SHAKE128 multi-rate padding (`0x1F … 0x80`) to a multiple of the
168-byte rate. -/
def padShake128 (msg : List Nat) : List Nat :=
  let padlen := 168 - msg.length % 168
  if padlen = 1 then msg ++ [0x9F]
  else msg ++ [0x1F] ++ List.replicate (padlen - 2) 0 ++ [0x80]

/-- A little-endian 64-bit lane from up to 8 bytes. -/
def bytesToLane (bs : List Nat) : Nat :=
  bs.reverse.foldl (fun acc b => acc * 256 + b % 256) 0

/-- XOR one 168-byte block into the state and permute. -/
def absorbBlock (A block : List Nat) : List Nat :=
  keccakF ((List.range 25).map (fun i =>
    if i < 21 then Nat.xor (A.getD i 0) (bytesToLane ((block.drop (8 * i)).take 8))
    else A.getD i 0))

/-- Split a byte list into its consecutive 168-byte blocks. -/
def blocks168 (l : List Nat) : List (List Nat) :=
  (List.range ((l.length + 167) / 168)).map (fun i => (l.drop (168 * i)).take 168)

/-- The SHAKE128 sponge state after absorbing the padded message. -/
def shakeAbsorb (msg : List Nat) : List Nat :=
  (blocks168 (padShake128 msg)).foldl absorbBlock (List.replicate 25 0)

/-- `hashlib.shake_128(msg).digest(4)`: the first 4 squeezed bytes
(little-endian bytes of lane 0). -/
def shake128Digest4 (msg : List Nat) : List Nat :=
  let A := shakeAbsorb msg
  (List.range 4).map (fun k => ((A.getD 0 0) >>> (8 * k)) % 256)

/-- A lowercase hexadecimal digit. -/
def hexChar (n : Nat) : Char := "0123456789abcdef".data.getD n '0'

/-- Lowercase hex rendering of a byte list (`hexdigest`). -/
def bytesToHex (bs : List Nat) : List Char :=
  bs.flatMap (fun b => [hexChar (b / 16), hexChar (b % 16)])

/-- The build identifier of `write_files`:
`hashlib.shake_128(serialized).hexdigest(4)`, where `serialized` is the
canonical byte serialization `json.dumps(parsed_config).encode('utf-8')`
of the configuration. -/
def computeBuildID (serialized : List Nat) : String :=
  String.mk (bytesToHex (shake128Digest4 serialized))

/-! ### `FileWriter.write_files`, fixed names, and the `writer` scope -/

def constants_file_name : String := "champsim_constants.h"

def instantiation_file_name : String := "core_inst.inc"

def core_module_declaration_file_name : String := "ooo_cpu_module_decl.inc"

def core_module_definition_file_name : String := "ooo_cpu_module_def.inc"

def cache_module_declaration_file_name : String := "cache_module_decl.inc"

def cache_module_definition_file_name : String := "cache_module_def.inc"

/-- Modelled from the spec: the repository root,
`os.path.dirname(os.path.dirname(os.path.abspath(__file__)))` — a fixed
path determined by the checkout location, independent of any
configuration.  A concrete placeholder value is used. -/
def champsim_root : String := "/champsim"

/-- `makefile_file_name`: the fixed `_configuration.mk` path at the
repository root. -/
def makefile_file_name : String := champsim_root ++ "/" ++ "_configuration.mk"

/-- `get_map_lines`: one `#define NAME VALUE` line per mapping entry. -/
def get_map_lines (fname_map : List (String × String)) : List String :=
  fname_map.map (fun x => "#define " ++ x.1 ++ " " ++ x.2)

/-- The writer state: the accumulated `(path, lines)` fileparts plus the
constructor-supplied default directories (`core_sources` only feeds the
makefile generator, which is outside this file). -/
structure FileWriter where
  fileparts : List (String × List String)
  bindir_name : String
  objdir_name : String

/-- The line sequences produced by the collaborator generators
(`instantiation_file`, `constants_file`, `modules`, `makefile` — modules
outside this file), as consumed by `write_files`.  `joined_modules` holds,
per compiled module, its name and its chained
`func_map`/`deprecated_func_map` entries. -/
structure GenOutputs where
  instantiation_lines : List String
  constants_lines : List String
  core_declarations : List String
  core_definitions : List String
  cache_declarations : List String
  cache_definitions : List String
  joined_modules : List (String × List (String × String))
  makefile_lines : List String

/-- The fragments one `write_files` invocation appends, in order: the two
fixed files, the core and cache declaration/definition pairs, one
`{name}.inc` per compiled module, and finally the makefile fragment. -/
def write_files_appended (inc_dir : String) (gen : GenOutputs) :
    List (String × List String) :=
  [(inc_dir ++ "/" ++ instantiation_file_name, gen.instantiation_lines),
   (inc_dir ++ "/" ++ constants_file_name, gen.constants_lines),
   (inc_dir ++ "/" ++ core_module_declaration_file_name, gen.core_declarations),
   (inc_dir ++ "/" ++ core_module_definition_file_name, gen.core_definitions),
   (inc_dir ++ "/" ++ cache_module_declaration_file_name, gen.cache_declarations),
   (inc_dir ++ "/" ++ cache_module_definition_file_name, gen.cache_definitions)]
  ++ gen.joined_modules.map
      (fun m => (inc_dir ++ "/" ++ m.1 ++ ".inc", get_map_lines m.2))
  ++ [(makefile_file_name, gen.makefile_lines)]

/-- `FileWriter.write_files(parsed_config, ...)`: compute the build ID
from the serialized configuration, then append the fixed fragments, the
per-module fragments, and the makefile fragment.  `os.path.abspath` of
the object directory is taken as already resolved, and `os.path.join`
with a relative component is `'/'`-concatenation. -/
def FileWriter.write_files (w : FileWriter) (serializedConfig : List Nat)
    (gen : GenOutputs) (objdir_name : Option String) : FileWriter :=
  let local_objdir_name := objdir_name.getD w.objdir_name
  let build_id := computeBuildID serializedConfig
  let inc_dir := local_objdir_name ++ "/" ++ build_id ++ "/" ++ "inc"
  { w with fileparts := w.fileparts ++ write_files_appended inc_dir gen }

/-- `FileWriter.finish` as a state transformer on `(writer, filesystem)`:
the Python method reads `self.fileparts` through `sorted` (which returns a
fresh list) and never assigns to it, so the writer component is returned
as it was. -/
def FileWriter.finishW (w : FileWriter) (fs : FS) : FileWriter × FS × Nat :=
  (w, finish w.fileparts fs)

/-- The `writer` context manager: construct a fresh `FileWriter`, run the
accumulation body, and — exiting normally or exceptionally — invoke
`finish` once on the writer state at exit (`try/finally`).  The body
returns either the final writer state or an exception value paired with
the writer state at the point of failure. -/
def writer (ε : Type) (fs : FS) (bindir_name objdir_name : String)
    (body : FileWriter → Except (ε × FileWriter) FileWriter) :
    (FS × Nat) × Except ε Unit :=
  let w : FileWriter :=
    { fileparts := [], bindir_name := bindir_name, objdir_name := objdir_name }
  match body w with
  | .ok w' => (finish w'.fileparts fs, .ok ())
  | .error (e, w') => (finish w'.fileparts fs, .error e)

/-! ## Theorems -/

theorem hit_bounds {a b : List α} {alo ahi blo bhi i j : Nat}
    (h : hit a b alo ahi blo bhi i j = true) :
    alo ≤ i ∧ i < ahi ∧ blo ≤ j ∧ j < bhi := by
  simp only [hit, Bool.and_eq_true, decide_eq_true_eq] at h
  exact ⟨h.1.1.1.1, h.1.1.1.2, h.1.1.2, h.1.2⟩

theorem hit_pairMatch {a b : List α} {alo ahi blo bhi i j : Nat}
    (h : hit a b alo ahi blo bhi i j = true) :
    pairMatch a b i j = true := by
  simp only [hit, Bool.and_eq_true] at h
  have h2 := h.2
  unfold pairMatch
  revert h2
  cases a[i]? <;> cases b[j]? <;> simp_all

theorem pairMatch_iff {a b : List α} {i j : Nat} :
    pairMatch a b i j = true ↔ ∃ x, a[i]? = some x ∧ b[j]? = some x := by
  unfold pairMatch
  cases ha : a[i]? <;> cases hb : b[j]? <;> simp_all
  exact eq_comm

theorem runLen_le_left (a b : List α) (alo ahi blo bhi : Nat) :
    ∀ i j, runLen a b alo ahi blo bhi i j ≤ i + 1 - alo := by
  intro i
  induction i with
  | zero =>
    intro j
    simp only [runLen]
    split
    · rename_i h
      have := (hit_bounds h).1
      omega
    · omega
  | succ i ih =>
    intro j
    simp only [runLen]
    split
    · rename_i h
      have hb := hit_bounds h
      split
      · have := ih (j-1)
        omega
      · omega
    · omega

theorem runLen_le_right (a b : List α) (alo ahi blo bhi : Nat) :
    ∀ i j, runLen a b alo ahi blo bhi i j ≤ j + 1 - blo := by
  intro i
  induction i with
  | zero =>
    intro j
    simp only [runLen]
    split
    · rename_i h
      have := (hit_bounds h).2.2.1
      omega
    · omega
  | succ i ih =>
    intro j
    simp only [runLen]
    split
    · rename_i h
      have hb := hit_bounds h
      split
      · rename_i hg
        have := ih (j-1)
        omega
      · omega
    · omega

theorem runLen_pos_hit {a b : List α} {alo ahi blo bhi i j : Nat}
    (h : 0 < runLen a b alo ahi blo bhi i j) :
    hit a b alo ahi blo bhi i j = true := by
  cases i <;> (simp only [runLen] at h; revert h; split <;> simp_all)

theorem runLen_match (a b : List α) (alo ahi blo bhi : Nat) :
    ∀ i j, ∀ t < runLen a b alo ahi blo bhi i j,
      pairMatch a b (i - t) (j - t) = true ∧ t ≤ i ∧ t ≤ j := by
  intro i
  induction i with
  | zero =>
    intro j t ht
    simp only [runLen] at ht
    revert ht
    split
    · rename_i h
      intro ht
      interval_cases t
      exact ⟨hit_pairMatch h, Nat.le_refl 0, Nat.zero_le j⟩
    · omega
  | succ i ih =>
    intro j t ht
    simp only [runLen] at ht
    revert ht
    split
    · rename_i h
      split
      · rename_i hg
        intro ht
        rcases Nat.eq_zero_or_pos t with rfl | htpos
        · exact ⟨by simpa using hit_pairMatch h, Nat.zero_le _, Nat.zero_le _⟩
        · have := ih (j-1) (t-1) (by omega)
          have heq : i - (t-1) = i + 1 - t := by omega
          have heq2 : j - 1 - (t-1) = j - t := by omega
          rw [heq, heq2] at this
          exact ⟨this.1, by omega, by omega⟩
      · intro ht
        interval_cases t
        exact ⟨hit_pairMatch h, Nat.zero_le _, Nat.zero_le _⟩
    · omega

theorem runLen_zero_of_not_hit {a b : List α} {alo ahi blo bhi i j : Nat}
    (h : ¬ hit a b alo ahi blo bhi i j = true) :
    runLen a b alo ahi blo bhi i j = 0 := by
  cases i <;> simp [runLen, h]

theorem hit_diag_left {a : List α} {alo ahi i j : Nat}
    (h : hit a a alo ahi alo ahi i j = true) :
    hit a a alo ahi alo ahi i i = true := by
  have hb := hit_bounds h
  simp only [hit, Bool.and_eq_true, decide_eq_true_eq] at h ⊢
  refine ⟨⟨⟨⟨hb.1, hb.2.1⟩, hb.1⟩, hb.2.1⟩, ?_⟩
  have h2 := h.2
  revert h2
  cases ha : a[i]? <;> cases hb' : a[j]? <;> simp_all

theorem hit_diag_right {a : List α} {alo ahi i j : Nat}
    (h : hit a a alo ahi alo ahi i j = true) :
    hit a a alo ahi alo ahi j j = true := by
  have hb := hit_bounds h
  simp only [hit, Bool.and_eq_true, decide_eq_true_eq] at h ⊢
  refine ⟨⟨⟨⟨hb.2.2.1, hb.2.2.2⟩, hb.2.2.1⟩, hb.2.2.2⟩, ?_⟩
  have h2 := h.2
  revert h2
  cases ha : a[i]? <;> cases hb' : a[j]? <;> simp_all

theorem runLen_le_diag_left (a : List α) (alo ahi : Nat) :
    ∀ i j, runLen a a alo ahi alo ahi i j ≤ runLen a a alo ahi alo ahi i i := by
  intro i
  induction i with
  | zero =>
    intro j
    simp only [runLen]
    split
    · rename_i h
      rw [if_pos (hit_diag_left h)]
    · omega
  | succ i ih =>
    intro j
    by_cases h : hit a a alo ahi alo ahi (i+1) j = true
    · have hd := hit_diag_left h
      simp only [runLen, if_pos h, if_pos hd]
      by_cases hg : alo < i + 1 ∧ alo < j
      · rw [if_pos hg, if_pos ⟨hg.1, hg.1⟩]
        have h1 := ih (j - 1)
        have h2 : runLen a a alo ahi alo ahi i i ≤ runLen a a alo ahi alo ahi i (i+1-1) := by
          simp
        omega
      · rw [if_neg hg]
        split <;> omega
    · simp only [runLen, if_neg h]
      omega

theorem runLen_le_diag_right (a : List α) (alo ahi : Nat) :
    ∀ i j, runLen a a alo ahi alo ahi i j ≤ runLen a a alo ahi alo ahi j j := by
  intro i
  induction i with
  | zero =>
    intro j
    simp only [runLen]
    split
    · rename_i h
      have hd := hit_diag_right h
      cases j with
      | zero => simp only [runLen, if_pos hd]; omega
      | succ j' => simp only [runLen, if_pos hd]; omega
    · omega
  | succ i ih =>
    intro j
    by_cases h : hit a a alo ahi alo ahi (i+1) j = true
    · have hd := hit_diag_right h
      have hb := hit_bounds h
      simp only [runLen, if_pos h]
      by_cases hg : alo < i + 1 ∧ alo < j
      · rw [if_pos hg]
        -- j ≥ 1 since alo < j... not necessarily, alo could be 0 < j so j ≥ 1
        obtain ⟨j', rfl⟩ : ∃ j', j = j' + 1 := ⟨j - 1, by omega⟩
        simp only [runLen, if_pos hd, if_pos (show alo < j' + 1 ∧ alo < j' + 1 by omega)]
        simp only [Nat.add_sub_cancel]
        have h1 := ih j'
        omega
      · rw [if_neg hg]
        -- runLen  j j ≥ 1 since hit j j
        cases j with
        | zero => simp only [runLen, if_pos hd]; omega
        | succ j' => simp only [runLen, if_pos hd]; split <;> omega
    · simp only [runLen, if_neg h]
      omega

/-- Invariant preservation for the inner scanning loop on identical aligned
sequences: the running best stays on the diagonal and dominates all
processed run lengths. -/
theorem innerScan_diag (a : List α) (alo ahi i : Nat) :
    ∀ (len start : Nat) (best : Nat × Nat × Nat),
      best.1 = best.2.1 →
      (∀ i' j', i' < i → runLen a a alo ahi alo ahi i' j' ≤ best.2.2) →
      (∀ j' < start, runLen a a alo ahi alo ahi i j' ≤ best.2.2) →
      (((List.range' start len).foldl (stepBest a a alo ahi alo ahi i) best).1 =
        ((List.range' start len).foldl (stepBest a a alo ahi alo ahi i) best).2.1) ∧
      (∀ i' j', i' < i → runLen a a alo ahi alo ahi i' j' ≤
        ((List.range' start len).foldl (stepBest a a alo ahi alo ahi i) best).2.2) ∧
      (∀ j' < start + len, runLen a a alo ahi alo ahi i j' ≤
        ((List.range' start len).foldl (stepBest a a alo ahi alo ahi i) best).2.2) := by
  intro len
  induction len with
  | zero =>
    intro start best h1 h2 h3
    simpa using ⟨h1, h2, h3⟩
  | succ len ih =>
    intro start best h1 h2 h3
    rw [List.range'_succ, List.foldl_cons]
    -- one step at j = start
    set k := runLen a a alo ahi alo ahi i start with hk
    by_cases hupd : best.2.2 < k
    · -- the update must be diagonal: i = start
      have hieq : i = start := by
        rcases Nat.lt_trichotomy i start with hlt | heq | hgt
        · -- i < start: runLen i i was processed as j' = i < start
          have hd := runLen_le_diag_left a alo ahi i start
          have := h3 i hlt
          omega
        · exact heq
        · -- start < i: runLen start start dominates via row start < i
          have hd := runLen_le_diag_right a alo ahi i start
          have := h2 start start hgt
          omega
      have hstep : stepBest a a alo ahi alo ahi i best start =
          (i + 1 - k, start + 1 - k, k) := by
        simp [stepBest, ← hk, hupd]
      rw [hstep]
      have := ih (start + 1) (i + 1 - k, start + 1 - k, k)
        (by simp [hieq])
        (fun i' j' hi' => by
          have := h2 i' j' hi'
          simp only []
          omega)
        (fun j' hj' => by
          simp only []
          rcases Nat.lt_or_ge j' start with h | h
          · have := h3 j' h
            omega
          · have hj : j' = start := by omega
            subst hj
            omega)
      exact ⟨this.1, this.2.1, fun j' hj' => this.2.2 j' (by omega)⟩
    · have hstep : stepBest a a alo ahi alo ahi i best start = best := by
        simp [stepBest, ← hk, hupd]
      rw [hstep]
      have := ih (start + 1) best h1 h2
        (fun j' hj' => by
          rcases Nat.lt_or_ge j' start with h | h
          · exact h3 j' h
          · have : j' = start := by omega
            subst this; omega)
      exact ⟨this.1, this.2.1, by
        intro j' hj'
        exact this.2.2 j' (by omega)⟩
/-- The outer loop of the scan on identical aligned sequences keeps the
best match diagonal. -/
theorem outerScan_diag (a : List α) (alo ahi : Nat) :
    ∀ (len start : Nat) (best : Nat × Nat × Nat),
      best.1 = best.2.1 →
      (∀ i' j', i' < start → runLen a a alo ahi alo ahi i' j' ≤ best.2.2) →
      (((List.range' start len).foldl
          (fun best i => innerLoop a a alo ahi alo ahi i best) best).1 =
        ((List.range' start len).foldl
          (fun best i => innerLoop a a alo ahi alo ahi i best) best).2.1) ∧
      (∀ i' j', i' < start + len → runLen a a alo ahi alo ahi i' j' ≤
        ((List.range' start len).foldl
          (fun best i => innerLoop a a alo ahi alo ahi i best) best).2.2) := by
  intro len
  induction len with
  | zero =>
    intro start best h1 h2
    simpa using ⟨h1, h2⟩
  | succ len ih =>
    intro start best h1 h2
    rw [List.range'_succ, List.foldl_cons]
    have hin := innerScan_diag a alo ahi start (ahi - alo) alo best h1 h2
      (fun j' hj' => by
        have hnh : ¬ hit a a alo ahi alo ahi start j' = true :=
          fun hh => absurd (hit_bounds hh).2.2.1 (by omega)
        rw [runLen_zero_of_not_hit hnh]
        exact Nat.zero_le _)
    rw [show (List.range' alo (ahi - alo)).foldl (stepBest a a alo ahi alo ahi start) best
        = innerLoop a a alo ahi alo ahi start best from rfl] at hin
    have hrow : ∀ j', runLen a a alo ahi alo ahi start j' ≤
        (innerLoop a a alo ahi alo ahi start best).2.2 := by
      intro j'
      rcases Nat.lt_or_ge j' (alo + (ahi - alo)) with h | h
      · exact hin.2.2 j' h
      · have : ¬ hit a a alo ahi alo ahi start j' = true := by
          intro hh
          have := hit_bounds hh
          omega
        rw [runLen_zero_of_not_hit this]
        exact Nat.zero_le _
    have := ih (start + 1) (innerLoop a a alo ahi alo ahi start best) hin.1
      (fun i' j' hi' => by
        rcases Nat.lt_or_ge i' start with h | h
        · exact hin.2.1 i' j' h
        · have : i' = start := by omega
          subst this
          exact hrow j')
    exact ⟨this.1, fun i' j' hi' => this.2 i' j' (by omega)⟩

/-- On identical aligned sequences the scanning loops return a diagonal
best match. -/
theorem bestLoop_diag (a : List α) (alo ahi : Nat) :
    (bestLoop a a alo ahi alo ahi).1 = (bestLoop a a alo ahi alo ahi).2.1 := by
  have := outerScan_diag a alo ahi (ahi - alo) alo (alo, alo, 0) rfl
    (fun i' j' hi' => by
      have hnh : ¬ hit a a alo ahi alo ahi i' j' = true :=
        fun hh => absurd (hit_bounds hh).1 (by omega)
      rw [runLen_zero_of_not_hit hnh])
  exact this.1

theorem validBest_def {a b : List α} {alo ahi blo bhi x y z : Nat} :
    ValidBest a b alo ahi blo bhi (x, y, z) ↔
      alo ≤ x ∧ blo ≤ y ∧ x + z ≤ ahi ∧ y + z ≤ bhi ∧
      ∀ t < z, pairMatch a b (x + t) (y + t) = true :=
  Iff.rfl

/-- A `foldl` preserves any invariant its step preserves. -/
theorem foldl_inv {β γ : Type} {P : β → Prop} {f : β → γ → β}
    (hstep : ∀ s x, P s → P (f s x)) :
    ∀ (l : List γ) (s : β), P s → P (l.foldl f s) := by
  intro l
  induction l with
  | nil => intro s hs; exact hs
  | cons x xs ih => intro s hs; exact ih _ (hstep s x hs)

theorem stepBest_valid {a b : List α} {alo ahi blo bhi i : Nat}
    {best : Nat × Nat × Nat} (hv : ValidBest a b alo ahi blo bhi best) (j : Nat) :
    ValidBest a b alo ahi blo bhi (stepBest a b alo ahi blo bhi i best j) := by
  by_cases hupd : best.2.2 < runLen a b alo ahi blo bhi i j
  · have hkpos : 0 < runLen a b alo ahi blo bhi i j := by omega
    have hhit := runLen_pos_hit hkpos
    have hb := hit_bounds hhit
    have h1 := runLen_le_left a b alo ahi blo bhi i j
    have h2 := runLen_le_right a b alo ahi blo bhi i j
    simp only [stepBest, if_pos hupd]
    rw [validBest_def]
    refine ⟨by omega, by omega, by omega, by omega, ?_⟩
    intro t ht
    have hm := runLen_match a b alo ahi blo bhi i j
      (runLen a b alo ahi blo bhi i j - 1 - t) (by omega)
    have e1 : i - (runLen a b alo ahi blo bhi i j - 1 - t) =
        i + 1 - runLen a b alo ahi blo bhi i j + t := by omega
    have e2 : j - (runLen a b alo ahi blo bhi i j - 1 - t) =
        j + 1 - runLen a b alo ahi blo bhi i j + t := by omega
    rw [e1, e2] at hm
    exact hm.1
  · simpa only [stepBest, if_neg hupd] using hv

theorem bestLoop_valid (a b : List α) (alo ahi blo bhi : Nat)
    (halo : alo ≤ ahi) (hblo : blo ≤ bhi) :
    ValidBest a b alo ahi blo bhi (bestLoop a b alo ahi blo bhi) := by
  unfold bestLoop
  refine foldl_inv ?_ _ _ ?_
  · intro s i hs
    unfold innerLoop
    refine foldl_inv ?_ _ _ hs
    intro s' j hs'
    exact stepBest_valid hs' j
  · rw [validBest_def]
    exact ⟨Nat.le_refl _, Nat.le_refl _, by omega, by omega,
      fun t ht => absurd ht (by omega)⟩

theorem extLo_valid (a b : List α) (alo ahi blo bhi : Nat) :
    ∀ besti bestj bestsize, ValidBest a b alo ahi blo bhi (besti, bestj, bestsize) →
      ValidBest a b alo ahi blo bhi (extLo a b alo blo besti bestj bestsize) := by
  intro besti
  induction besti with
  | zero => intro bestj bestsize hv; exact hv
  | succ bi ih =>
    intro bestj bestsize hv
    rw [extLo]
    split
    · rename_i hc
      obtain ⟨hc1, hc2, hc3⟩ := hc
      apply ih
      rw [validBest_def] at hv ⊢
      obtain ⟨v1, v2, v3, v4, v5⟩ := hv
      refine ⟨by omega, by omega, by omega, by omega, ?_⟩
      intro t ht
      rcases Nat.eq_zero_or_pos t with rfl | htp
      · simpa using hc3
      · have hv5 := v5 (t - 1) (by omega)
        have e1 : bi + 1 + (t - 1) = bi + t := by omega
        have e2 : bestj + (t - 1) = bestj - 1 + t := by omega
        rw [e1, e2] at hv5
        exact hv5
    · exact hv

theorem extHi_valid (a b : List α) (alo ahi blo bhi : Nat) :
    ∀ gas besti bestj bestsize, gas = ahi - (besti + bestsize) →
      ValidBest a b alo ahi blo bhi (besti, bestj, bestsize) →
      ValidBest a b alo ahi blo bhi (extHi a b ahi bhi besti bestj bestsize) := by
  intro gas
  induction gas with
  | zero =>
    intro bi bj bs hg hv
    rw [extHi]
    split
    · rename_i hc; omega
    · exact hv
  | succ g ihg =>
    intro bi bj bs hg hv
    rw [extHi]
    split
    · rename_i hc
      apply ihg _ _ _ (by omega)
      rw [validBest_def] at hv ⊢
      obtain ⟨v1, v2, v3, v4, v5⟩ := hv
      refine ⟨v1, v2, by omega, by omega, ?_⟩
      intro t ht
      rcases Nat.lt_or_ge t bs with h | h
      · exact v5 t h
      · have : t = bs := by omega
        subst this
        exact hc.2.2
    · exact hv

/-- The match returned by `find_longest_match` lies inside the region and
matches pointwise. -/
theorem find_longest_match_valid (a b : List α) (alo ahi blo bhi : Nat)
    (halo : alo ≤ ahi) (hblo : blo ≤ bhi) :
    ValidBest a b alo ahi blo bhi (find_longest_match a b alo ahi blo bhi) := by
  unfold find_longest_match
  exact extHi_valid a b alo ahi blo bhi _ _ _ _ rfl
    (extLo_valid a b alo ahi blo bhi _ _ _
      (bestLoop_valid a b alo ahi blo bhi halo hblo))

theorem pairMatch_self {a : List α} {i : Nat} (h : i < a.length) :
    pairMatch a a i i = true := by
  unfold pairMatch
  rw [List.getElem?_eq_getElem h]
  simp

theorem extLo_diag (a : List α) (alo : Nat) :
    ∀ bi bs, alo ≤ bi → bi ≤ a.length →
      extLo a a alo alo bi bi bs = (alo, alo, bs + (bi - alo)) := by
  intro bi
  induction bi with
  | zero =>
    intro bs h1 h2
    have : alo = 0 := by omega
    subst this
    simp [extLo]
  | succ bi ih =>
    intro bs h1 h2
    rw [extLo]
    by_cases hc : alo < bi + 1
    · rw [if_pos ⟨hc, hc, by simpa using pairMatch_self (show bi < a.length by omega)⟩]
      rw [show bi + 1 - 1 = bi from rfl]
      rw [ih (bs + 1) (by omega) (by omega)]
      have : bs + 1 + (bi - alo) = bs + (bi + 1 - alo) := by omega
      rw [this]
    · rw [if_neg (by tauto)]
      have : alo = bi + 1 := by omega
      subst this
      simp

theorem extHi_diag (a : List α) (ahi : Nat) (hahi : ahi ≤ a.length) :
    ∀ gas bi bs, gas = ahi - (bi + bs) → bi + bs ≤ ahi →
      extHi a a ahi ahi bi bi bs = (bi, bi, bs + (ahi - (bi + bs))) := by
  intro gas
  induction gas with
  | zero =>
    intro bi bs hg hb
    rw [extHi, dif_neg (by omega)]
    have : ahi - (bi + bs) = 0 := by omega
    rw [this, Nat.add_zero]
  | succ g ihg =>
    intro bi bs hg hb
    rw [extHi, dif_pos ⟨by omega, by omega,
      pairMatch_self (show bi + bs < a.length by omega)⟩]
    rw [ihg bi (bs + 1) (by omega) (by omega)]
    have : bs + 1 + (ahi - (bi + (bs + 1))) = bs + (ahi - (bi + bs)) := by omega
    rw [this]

/-- On identical aligned in-range sequences, `find_longest_match` returns
the whole region. -/
theorem find_longest_match_diag (a : List α) (alo ahi : Nat)
    (h1 : alo ≤ ahi) (h2 : ahi ≤ a.length) :
    find_longest_match a a alo ahi alo ahi = (alo, alo, ahi - alo) := by
  have hd := bestLoop_diag a alo ahi
  have hv := bestLoop_valid a a alo ahi alo ahi h1 h1
  obtain ⟨m, mj, s, hB⟩ : ∃ m mj s, bestLoop a a alo ahi alo ahi = (m, mj, s) :=
    ⟨_, _, _, rfl⟩
  rw [hB] at hd hv
  simp only at hd
  subst hd
  rw [validBest_def] at hv
  obtain ⟨v1, v2, v3, v4, v5⟩ := hv
  have hstep1 : extLo a a alo alo m m s = (alo, alo, s + (m - alo)) :=
    extLo_diag a alo m s v1 (by omega)
  have hstep2 : extHi a a ahi ahi alo alo (s + (m - alo)) =
      (alo, alo, s + (m - alo) + (ahi - (alo + (s + (m - alo))))) :=
    extHi_diag a ahi h2 _ alo (s + (m - alo)) rfl (by omega)
  simp only [find_longest_match, hB, hstep1, hstep2]
  have : s + (m - alo) + (ahi - (alo + (s + (m - alo)))) = ahi - alo := by omega
  rw [this]

theorem matchesCnt_le (a b : List α) :
    ∀ fuel alo ahi blo bhi, alo ≤ ahi → blo ≤ bhi →
      matchesCnt a b fuel alo ahi blo bhi ≤ ahi - alo ∧
      matchesCnt a b fuel alo ahi blo bhi ≤ bhi - blo := by
  intro fuel
  induction fuel with
  | zero => intro alo ahi blo bhi _ _; simp [matchesCnt]
  | succ fuel ih =>
    intro alo ahi blo bhi h1 h2
    have hv := find_longest_match_valid a b alo ahi blo bhi h1 h2
    obtain ⟨i, j, k, hm⟩ : ∃ i j k,
        find_longest_match a b alo ahi blo bhi = (i, j, k) := ⟨_, _, _, rfl⟩
    rw [hm, validBest_def] at hv
    obtain ⟨v1, v2, v3, v4, v5⟩ := hv
    simp only [matchesCnt, hm]
    split
    · simp
    · rename_i hk0
      have hL : (if alo < i ∧ blo < j then matchesCnt a b fuel alo i blo j else 0)
          ≤ i - alo ∧
          (if alo < i ∧ blo < j then matchesCnt a b fuel alo i blo j else 0)
          ≤ j - blo := by
        split
        · rename_i hg
          exact ⟨(ih alo i blo j (by omega) (by omega)).1,
                 (ih alo i blo j (by omega) (by omega)).2⟩
        · simp
      have hR : (if i + k < ahi ∧ j + k < bhi then
            matchesCnt a b fuel (i + k) ahi (j + k) bhi else 0) ≤ ahi - (i + k) ∧
          (if i + k < ahi ∧ j + k < bhi then
            matchesCnt a b fuel (i + k) ahi (j + k) bhi else 0) ≤ bhi - (j + k) := by
        split
        · rename_i hg
          exact ⟨(ih (i + k) ahi (j + k) bhi (by omega) (by omega)).1,
                 (ih (i + k) ahi (j + k) bhi (by omega) (by omega)).2⟩
        · simp
      omega

theorem matchesCnt_self (a : List α) :
    ∀ fuel alo ahi, 0 < fuel → alo ≤ ahi → ahi ≤ a.length →
      matchesCnt a a fuel alo ahi alo ahi = ahi - alo := by
  intro fuel alo ahi hf h1 h2
  obtain ⟨f, rfl⟩ : ∃ f, fuel = f + 1 := ⟨fuel - 1, by omega⟩
  simp only [matchesCnt, find_longest_match_diag a alo ahi h1 h2]
  split
  · rename_i h
    omega
  · rename_i h
    rw [if_neg (by omega), if_neg (by omega)]
    omega

theorem matchesCnt_full_eq (a b : List α) :
    ∀ fuel alo ahi blo bhi, alo ≤ ahi → ahi ≤ a.length → blo ≤ bhi → bhi ≤ b.length →
      matchesCnt a b fuel alo ahi blo bhi = ahi - alo →
      matchesCnt a b fuel alo ahi blo bhi = bhi - blo →
      ahi - alo = bhi - blo ∧ ∀ t < ahi - alo, a[alo + t]? = b[blo + t]? := by
  intro fuel
  induction fuel with
  | zero =>
    intro alo ahi blo bhi _ _ _ _ hA hB
    simp only [matchesCnt] at hA hB
    exact ⟨by omega, fun t ht => absurd ht (by omega)⟩
  | succ fuel ih =>
    intro alo ahi blo bhi h1 h2 h3 h4 hA hB
    have hv := find_longest_match_valid a b alo ahi blo bhi h1 h3
    obtain ⟨i, j, k, hm⟩ : ∃ i j k,
        find_longest_match a b alo ahi blo bhi = (i, j, k) := ⟨_, _, _, rfl⟩
    rw [hm, validBest_def] at hv
    obtain ⟨v1, v2, v3, v4, v5⟩ := hv
    simp only [matchesCnt, hm] at hA hB
    by_cases hk : k = 0
    · rw [if_pos (by simpa using hk)] at hA hB
      exact ⟨by omega, fun t ht => absurd ht (by omega)⟩
    · rw [if_neg (by simpa using hk)] at hA hB
      have hLb := matchesCnt_le a b fuel alo i blo j
      have hRb := matchesCnt_le a b fuel (i + k) ahi (j + k) bhi
      -- squeeze the left and right contributions
      have hsplitL : (if alo < i ∧ blo < j then matchesCnt a b fuel alo i blo j else 0)
          = i - alo ∧
          (if alo < i ∧ blo < j then matchesCnt a b fuel alo i blo j else 0)
          = j - blo := by
        by_cases hg : alo < i ∧ blo < j
        · rw [if_pos hg] at hA hB ⊢
          have h5 := (hLb (by omega) (by omega)).1
          have h6 := (hLb (by omega) (by omega)).2
          by_cases hg2 : i + k < ahi ∧ j + k < bhi
          · rw [if_pos hg2] at hA hB
            have h7 := (hRb (by omega) (by omega)).1
            have h8 := (hRb (by omega) (by omega)).2
            omega
          · rw [if_neg hg2] at hA hB
            omega
        · rw [if_neg hg] at hA hB ⊢
          by_cases hg2 : i + k < ahi ∧ j + k < bhi
          · rw [if_pos hg2] at hA hB
            have h7 := (hRb (by omega) (by omega)).1
            have h8 := (hRb (by omega) (by omega)).2
            omega
          · rw [if_neg hg2] at hA hB
            omega
      have hsplitR : (if i + k < ahi ∧ j + k < bhi then
            matchesCnt a b fuel (i + k) ahi (j + k) bhi else 0) = ahi - (i + k) ∧
          (if i + k < ahi ∧ j + k < bhi then
            matchesCnt a b fuel (i + k) ahi (j + k) bhi else 0) = bhi - (j + k) := by
        by_cases hg : alo < i ∧ blo < j
        · rw [if_pos hg] at hA hB
          have h5 := (hLb (by omega) (by omega)).1
          have h6 := (hLb (by omega) (by omega)).2
          by_cases hg2 : i + k < ahi ∧ j + k < bhi
          · rw [if_pos hg2] at hA hB ⊢
            have h7 := (hRb (by omega) (by omega)).1
            have h8 := (hRb (by omega) (by omega)).2
            omega
          · rw [if_neg hg2] at hA hB ⊢
            omega
        · rw [if_neg hg] at hA hB
          by_cases hg2 : i + k < ahi ∧ j + k < bhi
          · rw [if_pos hg2] at hA hB ⊢
            have h7 := (hRb (by omega) (by omega)).1
            have h8 := (hRb (by omega) (by omega)).2
            omega
          · rw [if_neg hg2] at hA hB ⊢
            omega
      -- left region pointwise equality
      have hleft : ∀ t < i - alo, a[alo + t]? = b[blo + t]? := by
        by_cases hg : alo < i ∧ blo < j
        · rw [if_pos hg] at hsplitL
          exact (ih alo i blo j (by omega) (by omega) (by omega) (by omega)
            hsplitL.1 hsplitL.2).2
        · rw [if_neg hg] at hsplitL
          intro t ht
          omega
      have hleft_eq : i - alo = j - blo := by
        by_cases hg : alo < i ∧ blo < j
        · rw [if_pos hg] at hsplitL
          exact (ih alo i blo j (by omega) (by omega) (by omega) (by omega)
            hsplitL.1 hsplitL.2).1
        · rw [if_neg hg] at hsplitL
          omega
      have hright : ∀ t < ahi - (i + k), a[i + k + t]? = b[j + k + t]? := by
        by_cases hg2 : i + k < ahi ∧ j + k < bhi
        · rw [if_pos hg2] at hsplitR
          exact (ih (i + k) ahi (j + k) bhi (by omega) (by omega) (by omega)
            (by omega) hsplitR.1 hsplitR.2).2
        · rw [if_neg hg2] at hsplitR
          intro t ht
          omega
      have hright_eq : ahi - (i + k) = bhi - (j + k) := by
        by_cases hg2 : i + k < ahi ∧ j + k < bhi
        · rw [if_pos hg2] at hsplitR
          exact (ih (i + k) ahi (j + k) bhi (by omega) (by omega) (by omega)
            (by omega) hsplitR.1 hsplitR.2).1
        · rw [if_neg hg2] at hsplitR
          omega
      have hmid : ∀ t < k, a[i + t]? = b[j + t]? := by
        intro t ht
        obtain ⟨x, hx1, hx2⟩ := pairMatch_iff.mp (v5 t ht)
        rw [hx1, hx2]
      refine ⟨by omega, ?_⟩
      intro t ht
      rcases Nat.lt_or_ge t (i - alo) with hcase | hcase
      · exact hleft t hcase
      · rcases Nat.lt_or_ge t (i - alo + k) with hcase2 | hcase2
        · have e1 : alo + t = i + (t - (i - alo)) := by omega
          have e2 : blo + t = j + (t - (i - alo)) := by omega
          rw [e1, e2]
          exact hmid (t - (i - alo)) (by omega)
        · have e1 : alo + t = i + k + (t - (i - alo) - k) := by omega
          have e2 : blo + t = j + k + (t - (i - alo) - k) := by omega
          rw [e1, e2]
          exact hright (t - (i - alo) - k) (by omega)

theorem seqMatches_le (a b : List α) :
    seqMatches a b ≤ a.length ∧ seqMatches a b ≤ b.length := by
  have := matchesCnt_le a b (a.length + b.length + 1) 0 a.length 0 b.length
    (by omega) (by omega)
  simpa [seqMatches] using this

theorem seqMatches_self (a : List α) : seqMatches a a = a.length := by
  have := matchesCnt_self a (a.length + a.length + 1) 0 a.length
    (by omega) (by omega) (Nat.le_refl _)
  simpa [seqMatches] using this

theorem seqMatches_eq_of_full (a b : List α)
    (hA : seqMatches a b = a.length) (hB : seqMatches a b = b.length) :
    a = b := by
  have h := matchesCnt_full_eq a b (a.length + b.length + 1) 0 a.length 0 b.length
    (by omega) (Nat.le_refl _) (by omega) (Nat.le_refl _)
    (by simpa [seqMatches] using hA) (by simpa [seqMatches] using hB)
  apply List.ext_getElem?
  intro n
  rcases Nat.lt_or_ge n a.length with hn | hn
  · simpa using h.2 n (by omega)
  · rw [List.getElem?_eq_none hn, List.getElem?_eq_none (by omega)]

theorem seqRatio_self (a : List α) : seqRatio a a = 1 := by
  unfold seqRatio
  split
  · rfl
  · rename_i h
    rw [seqMatches_self]
    have hn : (a.length : ℚ) + (a.length : ℚ) ≠ 0 := by
      have : 0 < a.length := by omega
      have : (0 : ℚ) < a.length := by exact_mod_cast this
      linarith
    rw [div_eq_one_iff_eq hn]
    ring

theorem seqRatio_lt_one (a b : List α) (hne : a ≠ b) : seqRatio a b < 1 := by
  unfold seqRatio
  split
  · rename_i h
    exfalso
    apply hne
    have ha : a.length = 0 := by omega
    have hb : b.length = 0 := by omega
    rw [List.length_eq_zero] at ha hb
    rw [ha, hb]
  · rename_i h
    have hlt : 2 * seqMatches a b < a.length + b.length := by
      by_contra hge
      push_neg at hge
      have hle := seqMatches_le a b
      have hA : seqMatches a b = a.length := by omega
      have hB : seqMatches a b = b.length := by omega
      exact hne (seqMatches_eq_of_full a b hA hB)
    have hpos : (0 : ℚ) < (a.length : ℚ) + (b.length : ℚ) := by
      have : 0 < a.length + b.length := Nat.pos_of_ne_zero h
      exact_mod_cast this
    rw [div_lt_one hpos]
    exact_mod_cast hlt

/-- The heart of the change test: the `SequenceMatcher` similarity ratio
of two sequences is below `1` exactly when the sequences differ. -/
theorem seqRatio_lt_one_iff (a b : List α) : seqRatio a b < 1 ↔ a ≠ b := by
  constructor
  · intro h hne
    rw [hne, seqRatio_self] at h
    exact lt_irrefl 1 h
  · exact seqRatio_lt_one a b

/-- `files_are_different` holds exactly when the stripped line lists
differ. -/
theorem files_are_different_iff (xs ys : List String) :
    files_are_different xs ys = true ↔ xs.map pyStrip ≠ ys.map pyStrip := by
  unfold files_are_different
  rw [decide_eq_true_iff]
  exact seqRatio_lt_one_iff _ _

theorem files_are_different_eq_false (xs ys : List String)
    (h : xs.map pyStrip = ys.map pyStrip) :
    files_are_different xs ys = false := by
  rw [← Bool.not_eq_true, files_are_different_iff]
  simp [h]

/-- C1: `write_if_different` writes the new content when the target file
does not exist or when the similarity ratio of the whitespace-trimmed line
lists is below `1.0`; otherwise it performs no write, leaves the
filesystem untouched, and the trimmed contents are in fact identical. -/
theorem write_if_different_correct :
    ∀ (fs : FS) (fname s : String),
      (fs fname = none → write_if_different fs fname s = (updateFS fs fname s, true)) ∧
      (∀ old, fs fname = some old →
        (seqRatio ((pyIterLines old).map pyStrip) ((pySplitlines s).map pyStrip) < 1 →
          write_if_different fs fname s = (updateFS fs fname s, true)) ∧
        (¬ seqRatio ((pyIterLines old).map pyStrip) ((pySplitlines s).map pyStrip) < 1 →
          write_if_different fs fname s = (fs, false) ∧
          (pyIterLines old).map pyStrip = (pySplitlines s).map pyStrip)) := by
  intro fs fname s
  constructor
  · intro h
    simp [write_if_different, h]
  · intro old h
    constructor
    · intro hlt
      have hd : files_are_different (pyIterLines old) (pySplitlines s) = true :=
        decide_eq_true hlt
      simp [write_if_different, h, hd]
    · intro hge
      have hd : files_are_different (pyIterLines old) (pySplitlines s) = false := by
        unfold files_are_different
        simpa using hge
      refine ⟨by simp [write_if_different, h, hd], ?_⟩
      by_contra hne
      exact hge ((seqRatio_lt_one_iff _ _).mpr hne)

/-- C1 witness: a missing file is written; rewriting content that differs
only in per-line trailing whitespace is suppressed and the filesystem is
untouched. -/
theorem write_if_different_correct_witness :
    write_if_different (fun _ => none) "f" "A" = (updateFS (fun _ => none) "f" "A", true) ∧
    write_if_different (updateFS (fun _ => none) "f" "A \nB") "f" "A\nB" =
      (updateFS (fun _ => none) "f" "A \nB", false) := by
  constructor
  · exact (write_if_different_correct (fun _ => none) "f" "A").1 rfl
  · refine (((write_if_different_correct (updateFS (fun _ => none) "f" "A \nB") "f"
      "A\nB").2 "A \nB" rfl).2 ?_).1
    have he : (pyIterLines "A \nB").map pyStrip = (pySplitlines "A\nB").map pyStrip := rfl
    rw [he, seqRatio_self]
    exact lt_irrefl 1

theorem shake128Digest4_length (serialized : List Nat) :
    (shake128Digest4 serialized).length = 4 := by
  simp [shake128Digest4]

theorem hexChar_mem_digits (n : Nat) :
    hexChar n ∈ ("0123456789abcdef" : String).data := by
  unfold hexChar
  rcases Nat.lt_or_ge n 16 with h | h
  · interval_cases n <;> decide
  · rw [List.getD_eq_default _ _ (by simpa using h)]
    decide

theorem computeBuildID_hex (serialized : List Nat) :
    ∀ c ∈ (computeBuildID serialized).data, c ∈ ("0123456789abcdef" : String).data := by
  intro c hc
  have hc2 : c ∈ bytesToHex (shake128Digest4 serialized) := hc
  rw [bytesToHex, List.mem_flatMap] at hc2
  obtain ⟨b, _, hb⟩ := hc2
  simp only [List.mem_cons, List.mem_singleton] at hb
  rcases hb with rfl | hb
  · exact hexChar_mem_digits _
  · rcases hb with rfl | hb
    · exact hexChar_mem_digits _
    · exact absurd hb (List.not_mem_nil c)

theorem computeBuildID_length (serialized : List Nat) :
    (computeBuildID serialized).length = 8 := by
  show (bytesToHex (shake128Digest4 serialized)).length = 8
  obtain ⟨b0, b1, b2, b3, hb⟩ : ∃ b0 b1 b2 b3,
      shake128Digest4 serialized = [b0, b1, b2, b3] := by
    have hlen4 := shake128Digest4_length serialized
    match hd : shake128Digest4 serialized with
    | [b0, b1, b2, b3] => exact ⟨b0, b1, b2, b3, rfl⟩
    | [] | [_] | [_, _] | [_, _, _] => simp [hd] at hlen4
    | _ :: _ :: _ :: _ :: _ :: _ => simp [hd] at hlen4
  rw [hb]
  rfl

/-- C7: the build identifier is a pure function of the serialized
configuration: the 4-byte truncated SHAKE128 digest rendered as exactly 8
lowercase hexadecimal characters; two computations agree. -/
theorem computeBuildID_spec :
    ∀ serialized : List Nat,
      computeBuildID serialized = computeBuildID serialized ∧
      computeBuildID serialized = String.mk (bytesToHex (shake128Digest4 serialized)) ∧
      (shake128Digest4 serialized).length = 4 ∧
      (computeBuildID serialized).length = 8 ∧
      ∀ c ∈ (computeBuildID serialized).data, c ∈ ("0123456789abcdef" : String).data :=
  fun serialized => ⟨rfl, rfl, shake128Digest4_length serialized,
    computeBuildID_length serialized, computeBuildID_hex serialized⟩

/-- C8: the scoped `writer` invokes `finish` exactly once on exit, on the
fragments accumulated at that point — both when the body completes
normally and when it raises; a failure partway through accumulation still
flushes everything collected before it. -/
theorem writer_flushes_once :
    ∀ (ε : Type) (fs : FS) (bindir objdir : String)
      (body : FileWriter → Except (ε × FileWriter) FileWriter),
      (∀ w', body { fileparts := [], bindir_name := bindir, objdir_name := objdir } = .ok w' →
        writer ε fs bindir objdir body = (finish w'.fileparts fs, .ok ())) ∧
      (∀ e w', body { fileparts := [], bindir_name := bindir, objdir_name := objdir }
          = .error (e, w') →
        writer ε fs bindir objdir body = (finish w'.fileparts fs, .error e)) := by
  intro ε fs bindir objdir body
  constructor
  · intro w' h
    simp only [writer, h]
  · intro e w' h
    simp only [writer, h]

/-- C8 witness: a body that completes normally, and a body that fails
after accumulating one fragment, both flush once — the failing one flushes
the fragment collected before the failure. -/
theorem writer_flushes_once_witness :
    writer Unit (fun _ => none) "bin" "obj" (fun w => .ok w)
      = (finish [] (fun _ => none), .ok ()) ∧
    writer Unit (fun _ => none) "bin" "obj"
      (fun w => .error ((), { w with fileparts := w.fileparts ++ [("p.mk", ["x"])] }))
      = (finish [("p.mk", ["x"])] (fun _ => none), .error ()) := by
  constructor
  · exact (writer_flushes_once Unit (fun _ => none) "bin" "obj" (fun w => .ok w)).1 _ rfl
  · exact (writer_flushes_once Unit (fun _ => none) "bin" "obj"
      (fun w => .error ((), { w with fileparts := w.fileparts ++ [("p.mk", ["x"])] }))).2
      () _ rfl

/-- C10: `finish` never mutates the writer's accumulated fragment list:
the writer component is returned exactly as it was, so a later flush
regroups the identical fragment set. -/
theorem finishW_frame :
    ∀ (w : FileWriter) (fs : FS),
      (w.finishW fs).1 = w ∧
      (w.finishW fs).1.fileparts = w.fileparts ∧
      finish ((w.finishW fs).1).fileparts = finish w.fileparts := by
  intro w fs
  exact ⟨rfl, rfl, rfl⟩

/-- C3: at flush time the group content is decorated by extension — the
fixed 5-line C++-style banner for `.cc`/`.h`/`.inc`, the 5-line make-style
banner for `.mk`, and no banner otherwise; the banners are constant lists,
independent of any configuration. -/
theorem banner_selection :
    ∀ (fname : String) (g : List (String × List String)),
      (splitextExt fname ∈ ([".cc", ".h", ".inc"] : List String) →
        contents_with_header fname g =
          cxx_generated_warning ++ (g.map Prod.snd).flatten) ∧
      (splitextExt fname = ".mk" →
        contents_with_header fname g =
          make_generated_warning ++ (g.map Prod.snd).flatten) ∧
      (splitextExt fname ∉ ([".cc", ".h", ".inc", ".mk"] : List String) →
        contents_with_header fname g = (g.map Prod.snd).flatten) ∧
      cxx_generated_warning.length = 5 ∧ make_generated_warning.length = 5 := by
  intro fname g
  refine ⟨?_, ?_, ?_, rfl, rfl⟩
  · intro h
    rw [contents_with_header, if_pos h]
  · intro h
    rw [contents_with_header, if_neg (by rw [h]; decide), if_pos (by rw [h]; decide)]
  · intro h
    have hA : splitextExt fname ∉ ([".cc", ".h", ".inc"] : List String) := by
      intro hm
      apply h
      simp only [List.mem_cons, List.mem_singleton] at hm ⊢
      tauto
    have hB : splitextExt fname ∉ ([".mk"] : List String) := by
      intro hm
      apply h
      simp only [List.mem_cons, List.mem_singleton] at hm ⊢
      tauto
    rw [contents_with_header, if_neg hA, if_neg hB]

/-- C3 witness: a header path gets the C++ banner, a makefile fragment the
make banner, a `.txt` path no banner. -/
theorem banner_selection_witness :
    contents_with_header "a.h" [("a.h", ["x"])] = cxx_generated_warning ++ ["x"] ∧
    contents_with_header "m.mk" [("m.mk", ["y"])] = make_generated_warning ++ ["y"] ∧
    contents_with_header "p.txt" [("p.txt", ["z"])] = ["z"] := by
  refine ⟨?_, ?_, ?_⟩
  · have h := (banner_selection "a.h" [("a.h", ["x"])]).1 (by decide)
    simpa using h
  · have h := (banner_selection "m.mk" [("m.mk", ["y"])]).2.1 (by decide)
    simpa using h
  · have h := (banner_selection "p.txt" [("p.txt", ["z"])]).2.2.1 (by decide)
    simpa using h

/-- C4 counterexample: a `.inc` path does *not* receive "no banner" — the
code prepends the 5-line C++-style banner to it, so the flushed content
differs from the bare fragment content the claim predicts. -/
theorem inc_banner_counterexample :
    finishOutputs [("a.inc", ["x"])]
      = [("a.inc", pyJoin (cxx_generated_warning ++ ["x"]))] ∧
    pyJoin (cxx_generated_warning ++ ["x"]) ≠ pyJoin ["x"] := by
  constructor
  · rfl
  · decide

/-- C4 (amended): a path with extension `.h` receives the 5-line
source/header banner as its first 5 lines, a `.inc` path receives that
same banner (not none), and a `.mk` path receives the build-tool banner. -/
theorem banner_first_lines :
    ∀ (fname : String) (g : List (String × List String)),
      (splitextExt fname = ".h" →
        (contents_with_header fname g).take 5 = cxx_generated_warning) ∧
      (splitextExt fname = ".inc" →
        (contents_with_header fname g).take 5 = cxx_generated_warning) ∧
      (splitextExt fname = ".mk" →
        (contents_with_header fname g).take 5 = make_generated_warning) := by
  intro fname g
  refine ⟨?_, ?_, ?_⟩
  · intro h
    rw [contents_with_header, if_pos (by rw [h]; decide)]
    rfl
  · intro h
    rw [contents_with_header, if_pos (by rw [h]; decide)]
    rfl
  · intro h
    rw [contents_with_header, if_neg (by rw [h]; decide), if_pos (by rw [h]; decide)]
    rfl

/-- C4 witness: the amended banner selection at concrete paths. -/
theorem banner_first_lines_witness :
    (contents_with_header "a.h" [("a.h", ["x"])]).take 5 = cxx_generated_warning ∧
    (contents_with_header "a.inc" [("a.inc", ["x"])]).take 5 = cxx_generated_warning ∧
    (contents_with_header "m.mk" [("m.mk", ["y"])]).take 5 = make_generated_warning :=
  ⟨(banner_first_lines "a.h" [("a.h", ["x"])]).1 (by decide),
   (banner_first_lines "a.inc" [("a.inc", ["x"])]).2.1 (by decide),
   (banner_first_lines "m.mk" [("m.mk", ["y"])]).2.2 (by decide)⟩

/-! ### Grouping: stability of the sort and structure of the runs -/

theorem filter_key_cons (p : String) (z : String × List String)
    (m : List (String × List String)) :
    (z :: m).filter (fun y => decide (y.1 = p))
      = if z.1 = p then z :: m.filter (fun y => decide (y.1 = p))
        else m.filter (fun y => decide (y.1 = p)) := by
  by_cases hz : z.1 = p <;> simp [List.filter_cons, hz]

theorem orderedInsert_filter_key (x : String × List String) (p : String) :
    ∀ l : List (String × List String),
      (List.orderedInsert (fun a b => a.1 ≤ b.1) x l).filter (fun y => decide (y.1 = p))
        = if x.1 = p then x :: l.filter (fun y => decide (y.1 = p))
          else l.filter (fun y => decide (y.1 = p)) := by
  intro l
  induction l with
  | nil => rw [List.orderedInsert, filter_key_cons]
  | cons b l ih =>
    rw [List.orderedInsert]
    by_cases hle : x.1 ≤ b.1
    · rw [if_pos hle, filter_key_cons]
    · rw [if_neg hle, filter_key_cons, ih, filter_key_cons]
      have hblt : b.1 < x.1 := lt_of_not_le hle
      by_cases hx : x.1 = p
      · have hb : ¬ b.1 = p := fun hc =>
          absurd hblt (by rw [hc, hx]; exact lt_irrefl p)
        simp only [if_neg hb, if_pos hx]
      · simp only [if_neg hx]

/-- Stability of Python's sort: filtering the sorted fileparts by one path
gives the same subsequence, in the same order, as filtering the original
submission list. -/
theorem pySortedByPath_filter_key (p : String) :
    ∀ l : List (String × List String),
      (pySortedByPath l).filter (fun y => decide (y.1 = p))
        = l.filter (fun y => decide (y.1 = p)) := by
  intro l
  induction l with
  | nil => rfl
  | cons x l ih =>
    show (List.orderedInsert _ x (List.insertionSort _ l)).filter _ = _
    rw [orderedInsert_filter_key]
    rw [show List.insertionSort (fun a b : String × List String => a.1 ≤ b.1) l
        = pySortedByPath l from rfl, ih, filter_key_cons]

theorem pySortedByPath_sorted (l : List (String × List String)) :
    List.Pairwise (fun a b : String × List String => a.1 ≤ b.1) (pySortedByPath l) := by
  have h := @List.sorted_insertionSort (String × List String)
    (fun a b => a.1 ≤ b.1) (fun a b => inferInstanceAs (Decidable (a.1 ≤ b.1)))
    ⟨fun a b => le_total a.1 b.1⟩ ⟨fun _ _ _ h1 h2 => le_trans h1 h2⟩ l
  exact h

theorem runsByPath_flatten : ∀ l, (runsByPath l).flatten = l := by
  intro l
  induction l with
  | nil => rfl
  | cons x xs ih =>
    cases h : runsByPath xs with
    | nil =>
      rw [h] at ih
      simp only [List.flatten_nil] at ih
      simp [runsByPath, h, ← ih]
    | cons g rest =>
      cases g with
      | nil =>
        rw [h] at ih
        simp only [List.flatten_cons, List.nil_append] at ih
        simp [runsByPath, h, ih]
      | cons y ys =>
        rw [h] at ih
        simp only [List.flatten_cons] at ih
        by_cases hxy : x.1 = y.1 <;> simp [runsByPath, h, hxy, ih]

theorem runsByPath_ne_nil : ∀ l g, g ∈ runsByPath l → g ≠ [] := by
  intro l
  induction l with
  | nil => intro g hg; simp [runsByPath] at hg
  | cons x xs ih =>
    intro g hg
    cases h : runsByPath xs with
    | nil =>
      rw [runsByPath, h] at hg
      simp at hg
      simp [hg]
    | cons g0 rest =>
      cases g0 with
      | nil =>
        exact absurd rfl (ih [] (h ▸ List.mem_cons_self [] rest))
      | cons y ys =>
        rw [runsByPath, h] at hg
        have hg2 : g ∈ (if x.1 = y.1 then (x :: y :: ys) :: rest
            else [x] :: (y :: ys) :: rest) := hg
        by_cases hxy : x.1 = y.1
        · rw [if_pos hxy] at hg2
          rcases List.mem_cons.mp hg2 with rfl | hmem
          · simp
          · exact ih g (h ▸ List.mem_cons_of_mem _ hmem)
        · rw [if_neg hxy] at hg2
          rcases List.mem_cons.mp hg2 with rfl | hmem
          · simp
          · exact ih g (h ▸ hmem)

/-- In a sorted list whose head key differs from the second element's key,
no later element carries the head's key. -/
theorem no_key_of_lt_head (x y : String × List String) (t : List (String × List String))
    (hs : List.Pairwise (fun a b : String × List String => a.1 ≤ b.1) (x :: y :: t))
    (hxy : ¬ x.1 = y.1) :
    ∀ z ∈ y :: t, ¬ z.1 = x.1 := by
  intro z hz hzx
  have hp := List.pairwise_cons.mp hs
  have h1 : x.1 ≤ y.1 := hp.1 y (List.mem_cons_self y t)
  have hp2 := List.pairwise_cons.mp hp.2
  have h2 : y.1 ≤ z.1 := by
    rcases List.mem_cons.mp hz with rfl | hzt
    · exact le_refl _
    · exact hp2.1 z hzt
  exact hxy (le_antisymm h1 (by rw [← hzx]; exact h2))

/-- Structure of the groups: on a list sorted by path, every run is
uniformly keyed by some path and equals the whole list filtered by that
path — so within each run the original order (submission order) is
preserved and nothing is missing. -/
theorem runsByPath_groups :
    ∀ l : List (String × List String),
      List.Pairwise (fun a b : String × List String => a.1 ≤ b.1) l →
      ∀ g ∈ runsByPath l, ∃ p, (∀ x ∈ g, x.1 = p) ∧
        g = l.filter (fun y => decide (y.1 = p)) := by
  intro l
  induction l with
  | nil => intro _ g hg; simp [runsByPath] at hg
  | cons x xs ih =>
    intro hs g hg
    have hxs : List.Pairwise (fun a b : String × List String => a.1 ≤ b.1) xs :=
      (List.pairwise_cons.mp hs).2
    have hflat := runsByPath_flatten xs
    cases h : runsByPath xs with
    | nil =>
      have hxsnil : xs = [] := by rw [h] at hflat; simpa using hflat.symm
      subst hxsnil
      rw [runsByPath, h] at hg
      have hg2 : g = [x] := by simpa using hg
      subst hg2
      refine ⟨x.1, by simp, ?_⟩
      rw [filter_key_cons, if_pos rfl]
      rfl
    | cons g0 rest =>
      have hg0ne := runsByPath_ne_nil xs g0 (h ▸ List.mem_cons_self g0 rest)
      cases g0 with
      | nil => exact absurd rfl hg0ne
      | cons y ys =>
        have hxseq : xs = (y :: ys) ++ rest.flatten := by
          rw [h] at hflat
          simpa using hflat.symm
        obtain ⟨p0, hu0, hf0⟩ := ih hxs (y :: ys) (h ▸ List.mem_cons_self _ _)
        have hyp0 : y.1 = p0 := hu0 y (List.mem_cons_self y ys)
        rw [runsByPath, h] at hg
        have hg2 : g ∈ (if x.1 = y.1 then (x :: y :: ys) :: rest
            else [x] :: (y :: ys) :: rest) := hg
        by_cases hxy : x.1 = y.1
        · rw [if_pos hxy] at hg2
          rcases List.mem_cons.mp hg2 with rfl | hmem
          · refine ⟨x.1, ?_, ?_⟩
            · intro z hz
              rcases List.mem_cons.mp hz with rfl | hz'
              · rfl
              · rw [hu0 z hz', ← hyp0, ← hxy]
            · rw [filter_key_cons, if_pos rfl]
              have hx0 : xs.filter (fun y' => decide (y'.1 = x.1)) = y :: ys := by
                rw [hxy, hyp0, ← hf0]
              rw [hx0]
          · obtain ⟨p, hu, hf⟩ := ih hxs g (h ▸ List.mem_cons_of_mem _ hmem)
            refine ⟨p, hu, ?_⟩
            have hgne := runsByPath_ne_nil xs g (h ▸ List.mem_cons_of_mem _ hmem)
            have hxp : ¬ x.1 = p := by
              intro hxp
              obtain ⟨z, hzg⟩ : ∃ z, z ∈ g := by
                cases g with
                | nil => exact absurd rfl hgne
                | cons a t => exact ⟨a, List.mem_cons_self a t⟩
              have hzp : z.1 = p := hu z hzg
              have hzflat : z ∈ rest.flatten := List.mem_flatten.mpr ⟨g, hmem, hzg⟩
              have hpp0 : p = p0 := by rw [← hxp, hxy, hyp0]
              have hsplit : xs.filter (fun y' => decide (y'.1 = p0))
                  = (y :: ys).filter (fun y' => decide (y'.1 = p0))
                    ++ (rest.flatten).filter (fun y' => decide (y'.1 = p0)) := by
                rw [hxseq, List.filter_append]
              have hfy : (y :: ys).filter (fun y' => decide (y'.1 = p0)) = y :: ys := by
                rw [List.filter_eq_self]
                intro a ha
                simpa using hu0 a ha
              have hnil : (rest.flatten).filter (fun y' => decide (y'.1 = p0)) = [] := by
                have h2 := hf0
                rw [hsplit, hfy] at h2
                have hlen := congrArg List.length h2
                rw [List.length_append] at hlen
                have hzero : ((rest.flatten).filter
                    (fun y' => decide (y'.1 = p0))).length = 0 := by omega
                exact List.length_eq_zero.mp hzero
              have hzin : z ∈ (rest.flatten).filter (fun y' => decide (y'.1 = p0)) :=
                List.mem_filter.mpr ⟨hzflat, by simp [hzp, hpp0]⟩
              rw [hnil] at hzin
              exact absurd hzin (List.not_mem_nil z)
            rw [filter_key_cons, if_neg hxp]
            exact hf
        · rw [if_neg hxy] at hg2
          have hxf : ∀ z ∈ xs, ¬ z.1 = x.1 := by
            rw [hxseq]
            exact no_key_of_lt_head x y (ys ++ rest.flatten)
              (by rw [hxseq] at hs; simpa using hs) hxy
          rcases List.mem_cons.mp hg2 with rfl | hmem
          · refine ⟨x.1, by simp, ?_⟩
            rw [filter_key_cons, if_pos rfl]
            have hnil : xs.filter (fun y' => decide (y'.1 = x.1)) = [] :=
              List.filter_eq_nil_iff.mpr (fun a ha => by simpa using hxf a ha)
            rw [hnil]
          · obtain ⟨p, hu, hf⟩ := ih hxs g (h ▸ hmem)
            refine ⟨p, hu, ?_⟩
            have hgne := runsByPath_ne_nil xs g (h ▸ hmem)
            have hxp : ¬ x.1 = p := by
              intro hxp
              obtain ⟨z, hzg⟩ : ∃ z, z ∈ g := by
                cases g with
                | nil => exact absurd rfl hgne
                | cons a t => exact ⟨a, List.mem_cons_self a t⟩
              have hzxs : z ∈ xs := by
                have hzf : z ∈ (runsByPath xs).flatten :=
                  List.mem_flatten.mpr ⟨g, h ▸ hmem, hzg⟩
                rwa [runsByPath_flatten] at hzf
              exact hxf z hzxs (by rw [hu z hzg, ← hxp])
            rw [filter_key_cons, if_neg hxp]
            exact hf

/-- On a sorted list, distinct runs have disjoint path keys. -/
theorem runsByPath_pairwise_ne :
    ∀ l : List (String × List String),
      List.Pairwise (fun a b : String × List String => a.1 ≤ b.1) l →
      List.Pairwise (fun g h => ∀ u ∈ g, ∀ v ∈ h, u.1 ≠ v.1) (runsByPath l) := by
  intro l
  induction l with
  | nil => intro _; simp [runsByPath]
  | cons x xs ih =>
    intro hs
    have hxs := (List.pairwise_cons.mp hs).2
    have hflat := runsByPath_flatten xs
    cases h : runsByPath xs with
    | nil =>
      rw [runsByPath, h]
      simp
    | cons g0 rest =>
      have hg0ne := runsByPath_ne_nil xs g0 (h ▸ List.mem_cons_self g0 rest)
      cases g0 with
      | nil => exact absurd rfl hg0ne
      | cons y ys =>
        have hIH := ih hxs
        rw [h] at hIH
        have hxseq : xs = (y :: ys) ++ rest.flatten := by
          rw [h] at hflat; simpa using hflat.symm
        by_cases hxy : x.1 = y.1
        · have hrw : runsByPath (x :: xs) = (x :: y :: ys) :: rest := by
            rw [runsByPath, h]
            exact if_pos hxy
          rw [hrw]
          rw [List.pairwise_cons] at hIH ⊢
          refine ⟨?_, hIH.2⟩
          intro g' hg' u hu v hv
          rcases List.mem_cons.mp hu with rfl | hu'
          · rw [hxy]
            exact hIH.1 g' hg' y (List.mem_cons_self y ys) v hv
          · exact hIH.1 g' hg' u hu' v hv
        · have hrw : runsByPath (x :: xs) = [x] :: (y :: ys) :: rest := by
            rw [runsByPath, h]
            exact if_neg hxy
          rw [hrw]
          have hxf : ∀ z ∈ xs, ¬ z.1 = x.1 := by
            rw [hxseq]
            exact no_key_of_lt_head x y (ys ++ rest.flatten)
              (by rw [hxseq] at hs; simpa using hs) hxy
          rw [List.pairwise_cons]
          refine ⟨?_, hIH⟩
          intro g' hg' u hu v hv
          have hux : u = x := by simpa using hu
          subst hux
          have hvxs : v ∈ xs := by
            have : v ∈ (runsByPath xs).flatten :=
              List.mem_flatten.mpr ⟨g', h ▸ hg', hv⟩
            rwa [runsByPath_flatten] at this
          exact fun hc => hxf v hvxs hc.symm

/-- Unpack membership in `finishOutputs`. -/
theorem finishOutputs_mem_spec (parts : List (String × List String)) (p : String)
    (c : String) (hmem : (p, c) ∈ finishOutputs parts) :
    ∃ g ∈ runsByPath (pySortedByPath parts),
      (∃ hd t, g = hd :: t ∧ hd.1 = p) ∧ c = pyJoin (contents_with_header p g) := by
  rw [finishOutputs, List.mem_filterMap] at hmem
  obtain ⟨g, hg, hfg⟩ := hmem
  cases g with
  | nil => simp at hfg
  | cons hd t =>
    have hfg2 : (hd.1, pyJoin (contents_with_header hd.1 (hd :: t))) = (p, c) := by
      exact Option.some.inj hfg
    have h1 : hd.1 = p := congrArg Prod.fst hfg2
    have h2 : pyJoin (contents_with_header hd.1 (hd :: t)) = c := congrArg Prod.snd hfg2
    exact ⟨hd :: t, hg, ⟨hd, t, rfl, h1⟩, by rw [← h2, h1]⟩

/-- Distinct entries of `finishOutputs` have distinct target paths. -/
theorem finishOutputs_pairwise_ne (parts : List (String × List String)) :
    List.Pairwise (fun u v : String × String => u.1 ≠ v.1) (finishOutputs parts) := by
  have hr := runsByPath_pairwise_ne _ (pySortedByPath_sorted parts)
  refine List.Pairwise.filterMap _ ?_ hr
  intro g g' hrel b hb b' hb'
  cases g with
  | nil => simp at hb
  | cons hd t =>
    cases g' with
    | nil => simp at hb'
    | cons hd' t' =>
      have hb2 : b = (hd.1, pyJoin (contents_with_header hd.1 (hd :: t))) :=
        (Option.some.inj hb).symm
      have hb'2 : b' = (hd'.1, pyJoin (contents_with_header hd'.1 (hd' :: t'))) :=
        (Option.some.inj hb').symm
      rw [hb2, hb'2]
      exact hrel hd (List.mem_cons_self hd t) hd' (List.mem_cons_self hd' t')

/-- `finishOutputs` paths appear in sorted (lexical) order. -/
theorem finishOutputs_sorted (parts : List (String × List String)) :
    List.Pairwise (fun u v : String × String => u.1 ≤ v.1) (finishOutputs parts) := by
  have hsor := pySortedByPath_sorted parts
  have hpf : List.Pairwise (fun g h => ∀ u ∈ g, ∀ v ∈ h, u.1 ≤ v.1)
      (runsByPath (pySortedByPath parts)) := by
    have := List.pairwise_flatten.mp
      (by rw [runsByPath_flatten]; exact hsor)
    exact this.2
  refine List.Pairwise.filterMap _ ?_ hpf
  intro g g' hrel b hb b' hb'
  cases g with
  | nil => simp at hb
  | cons hd t =>
    cases g' with
    | nil => simp at hb'
    | cons hd' t' =>
      have hb2 : b = (hd.1, pyJoin (contents_with_header hd.1 (hd :: t))) :=
        (Option.some.inj hb).symm
      have hb'2 : b' = (hd'.1, pyJoin (contents_with_header hd'.1 (hd' :: t'))) :=
        (Option.some.inj hb').symm
      rw [hb2, hb'2]
      exact hrel hd (List.mem_cons_self hd t) hd' (List.mem_cons_self hd' t')

/-- C5: flush groups fragments by stable sort and maximal runs — the
content written for a path is that path's banner followed by all fragments
submitted to it, concatenated in submission order; every submitted path
gets exactly one output; outputs appear in sorted (lexical) path order;
and the two-fragment example produces `"x\ny"`. -/
theorem grouping_correct :
    ∀ parts : List (String × List String),
      (∀ p c, (p, c) ∈ finishOutputs parts →
        c = pyJoin (contents_with_header p
          (parts.filter (fun y => decide (y.1 = p))))) ∧
      (∀ x ∈ parts, ∃ c, (x.1, c) ∈ finishOutputs parts) ∧
      List.Pairwise (fun u v : String × String => u.1 ≤ v.1) (finishOutputs parts) ∧
      finishOutputs [("P", ["x"]), ("P", ["y"])] = [("P", "x\ny")] := by
  intro parts
  have hconc : finishOutputs [("P", ["x"]), ("P", ["y"])] = [("P", "x\ny")] := by
    have h1 : pySortedByPath [("P", ["x"]), ("P", ["y"])]
        = [("P", ["x"]), ("P", ["y"])] := by
      unfold pySortedByPath
      rw [List.insertionSort, List.insertionSort, List.insertionSort,
        List.orderedInsert, List.orderedInsert, if_pos (le_refl _)]
    rw [finishOutputs, h1]
    rfl
  refine ⟨?_, ?_, finishOutputs_sorted parts, hconc⟩
  · intro p c hmem
    obtain ⟨g, hg, ⟨hd, t, rfl, hhd⟩, hc⟩ := finishOutputs_mem_spec parts p c hmem
    obtain ⟨q, hu, hf⟩ :=
      runsByPath_groups _ (pySortedByPath_sorted parts) _ hg
    have hpq : p = q := by rw [← hhd]; exact hu hd (List.mem_cons_self hd t)
    rw [hc, hf, hpq, pySortedByPath_filter_key]
  · intro x hx
    have hxs : x ∈ pySortedByPath parts :=
      ((List.perm_insertionSort (fun a b : String × List String => a.1 ≤ b.1)
        parts).mem_iff).mpr hx
    have hxf : x ∈ (runsByPath (pySortedByPath parts)).flatten := by
      rw [runsByPath_flatten]; exact hxs
    obtain ⟨g, hg, hxg⟩ := List.mem_flatten.mp hxf
    have hgne := runsByPath_ne_nil _ g hg
    obtain ⟨hd, t, rfl⟩ : ∃ hd t, g = hd :: t := by
      cases g with
      | nil => exact absurd rfl hgne
      | cons a b => exact ⟨a, b, rfl⟩
    obtain ⟨q, hu, _⟩ := runsByPath_groups _ (pySortedByPath_sorted parts) _ hg
    have hx1 : x.1 = hd.1 := by
      rw [hu x hxg, hu hd (List.mem_cons_self hd t)]
    refine ⟨pyJoin (contents_with_header hd.1 (hd :: t)), ?_⟩
    rw [hx1, finishOutputs, List.mem_filterMap]
    exact ⟨hd :: t, hg, rfl⟩

/-- C5 witness: the example path with two submitted fragments. -/
theorem grouping_correct_witness :
    "x\ny" = pyJoin (contents_with_header "P"
      ([("P", ["x"]), ("P", ["y"])].filter (fun y => decide (y.1 = "P")))) :=
  (grouping_correct [("P", ["x"]), ("P", ["y"])]).1 "P" "x\ny"
    (by rw [(grouping_correct [("P", ["x"]), ("P", ["y"])]).2.2.2]; exact
      List.mem_singleton.mpr rfl)

/-! ### Idempotence of flushing -/

theorem dropWhile_append_singleton (c : Char) (hc : c.isWhitespace = true) :
    ∀ l : List Char, (l ++ [c]).dropWhile Char.isWhitespace
      = if l.dropWhile Char.isWhitespace = [] then []
        else l.dropWhile Char.isWhitespace ++ [c] := by
  intro l
  induction l with
  | nil => simp [List.dropWhile_cons, hc]
  | cons a t ih =>
    by_cases ha : a.isWhitespace
    · simp only [List.cons_append, List.dropWhile_cons, ha, if_true, ite_true]
      exact ih
    · simp [List.dropWhile_cons, ha]

theorem stripChars_append_nl (l : List Char) :
    stripChars (l ++ ['\n']) = stripChars l := by
  unfold stripChars
  rw [dropWhile_append_singleton '\n' (by decide) l]
  by_cases h : l.dropWhile Char.isWhitespace = []
  · rw [if_pos h, h]
  · rw [if_neg h, List.reverse_append]
    simp only [List.reverse_cons, List.reverse_nil, List.nil_append,
      List.singleton_append, List.dropWhile_cons]
    rw [if_pos (by decide : ('\n').isWhitespace = true)]

theorem pyStrip_dropNl (cs : List Char) :
    pyStrip (String.mk (dropNl cs)) = pyStrip (String.mk cs) := by
  unfold pyStrip dropNl
  cases h : cs.reverse with
  | nil => rfl
  | cons c r =>
    show String.mk (stripChars (if c = '\n' then r.reverse else cs))
      = String.mk (stripChars cs)
    by_cases hc : c = '\n'
    · rw [if_pos hc]
      have hcs : cs = r.reverse ++ [c] := by
        have h2 := congrArg List.reverse h
        simpa using h2
      rw [hcs, hc, stripChars_append_nl]
    · rw [if_neg hc]

/-- Stripping erases the difference between file-iteration lines (with
terminators) and `splitlines` lines (without). -/
theorem iterLines_strip (s : String) :
    (pyIterLines s).map pyStrip = (pySplitlines s).map pyStrip := by
  unfold pyIterLines pySplitlines
  rw [List.map_map, List.map_map]
  apply List.map_congr_left
  intro cs _
  exact (pyStrip_dropNl cs).symm

theorem foldl_writeStep_preserves (q : String) :
    ∀ (L : List (String × String)) (fs : FS) (n : Nat),
      (∀ u ∈ L, u.1 ≠ q) → ((L.foldl writeStep (fs, n)).1) q = fs q := by
  intro L
  induction L with
  | nil => intro fs n _; rfl
  | cons u L ih =>
    intro fs n hne
    rw [List.foldl_cons]
    have hstep : (writeStep (fs, n) u).1 q = fs q := by
      unfold writeStep write_if_different
      simp only
      split
      · show updateFS fs u.1 u.2 q = fs q
        unfold updateFS
        rw [if_neg (fun hc => hne u (List.mem_cons_self u L) hc.symm)]
      · rfl
    have htail := ih (writeStep (fs, n) u).1 (writeStep (fs, n) u).2
      (fun v hv => hne v (List.mem_cons_of_mem u hv))
    rw [← hstep]
    exact htail

theorem write_if_different_none_eq {fs : FS} {fname : String} (s : String)
    (h : fs fname = none) :
    write_if_different fs fname s = (updateFS fs fname s, true) := by
  simp [write_if_different, h]

theorem write_if_different_diff_eq {fs : FS} {fname old : String} (s : String)
    (h : fs fname = some old)
    (hd : files_are_different (pyIterLines old) (pySplitlines s) = true) :
    write_if_different fs fname s = (updateFS fs fname s, true) := by
  simp [write_if_different, h, hd]

theorem write_if_different_same_eq {fs : FS} {fname old : String} (s : String)
    (h : fs fname = some old)
    (hd : files_are_different (pyIterLines old) (pySplitlines s) = false) :
    write_if_different fs fname s = (fs, false) := by
  simp [write_if_different, h, hd]

theorem updateFS_self (fs : FS) (p c : String) : updateFS fs p c p = some c := by
  unfold updateFS
  rw [if_pos rfl]

/-- After one flush, every output path holds content whose stripped
iterated lines agree with the stripped `splitlines` of that output's
content. -/
theorem first_flush_establishes :
    ∀ (L : List (String × String)) (fs : FS) (n : Nat),
      List.Pairwise (fun u v : String × String => u.1 ≠ v.1) L →
      ∀ p c, (p, c) ∈ L →
        ∃ d, ((L.foldl writeStep (fs, n)).1) p = some d ∧
          (pyIterLines d).map pyStrip = (pySplitlines c).map pyStrip := by
  intro L
  induction L with
  | nil => intro fs n _ p c h; simp at h
  | cons u L ih =>
    intro fs n hp p c hmem
    have hpc := List.pairwise_cons.mp hp
    rw [List.foldl_cons]
    rcases List.mem_cons.mp hmem with heq | hmem2
    · obtain ⟨hp1, hp2⟩ : u.1 = p ∧ u.2 = c := by
        rw [← heq]
        exact ⟨rfl, rfl⟩
      have hstep : ∃ d, (writeStep (fs, n) u).1 u.1 = some d ∧
          (pyIterLines d).map pyStrip = (pySplitlines u.2).map pyStrip := by
        cases hfs : fs u.1 with
        | none =>
          have hw : writeStep (fs, n) u = (updateFS fs u.1 u.2, n + 1) := by
            unfold writeStep
            rw [write_if_different_none_eq u.2 hfs]
            rfl
          rw [hw]
          exact ⟨u.2, updateFS_self fs u.1 u.2, iterLines_strip u.2⟩
        | some old =>
          by_cases hdiff : files_are_different (pyIterLines old) (pySplitlines u.2) = true
          · have hw : writeStep (fs, n) u = (updateFS fs u.1 u.2, n + 1) := by
              unfold writeStep
              rw [write_if_different_diff_eq u.2 hfs hdiff]
              rfl
            rw [hw]
            exact ⟨u.2, updateFS_self fs u.1 u.2, iterLines_strip u.2⟩
          · rw [Bool.not_eq_true] at hdiff
            have hw : writeStep (fs, n) u = (fs, n + 0) := by
              unfold writeStep
              rw [write_if_different_same_eq u.2 hfs hdiff]
              rfl
            rw [hw]
            refine ⟨old, hfs, ?_⟩
            have hiff := files_are_different_iff (pyIterLines old) (pySplitlines u.2)
            rw [hdiff] at hiff
            by_contra hne
            exact Bool.false_ne_true (hiff.mpr hne)
      obtain ⟨d, hd1, hd2⟩ := hstep
      refine ⟨d, ?_, by rw [← hp2]; exact hd2⟩
      have hpres := foldl_writeStep_preserves u.1 L (writeStep (fs, n) u).1
        (writeStep (fs, n) u).2 (fun v hv => (hpc.1 v hv).symm)
      rw [← hp1, hpres]
      exact hd1
    · exact ih (writeStep (fs, n) u).1 (writeStep (fs, n) u).2 hpc.2 p c hmem2

/-- A flush over outputs whose targets already hold strip-equivalent
content performs no write and leaves the filesystem unchanged. -/
theorem second_flush_noop :
    ∀ (L : List (String × String)) (fs : FS) (n : Nat),
      (∀ p c, (p, c) ∈ L → ∃ d, fs p = some d ∧
        (pyIterLines d).map pyStrip = (pySplitlines c).map pyStrip) →
      L.foldl writeStep (fs, n) = (fs, n) := by
  intro L
  induction L with
  | nil => intro fs n _; rfl
  | cons u L ih =>
    intro fs n hinv
    obtain ⟨d, hd1, hd2⟩ := hinv u.1 u.2 (List.mem_cons_self u L)
    have hstep : writeStep (fs, n) u = (fs, n) := by
      unfold writeStep
      rw [write_if_different_same_eq u.2 hd1 (files_are_different_eq_false _ _ hd2)]
      rfl
    rw [List.foldl_cons, hstep]
    exact ih fs n (fun p c hm => hinv p c (List.mem_cons_of_mem u hm))

/-- If a second flush could traverse the same line sequences again
(replayable lists instead of one-shot generators), it would perform zero
writes and leave the filesystem unchanged: the change-detection logic
itself is sound.  The program fails this only because the stored
sequences are exhausted generators — see
`finish_second_flush_truncates`. -/
theorem finish_replayed_noop :
    ∀ (parts : List (String × List String)) (fs : FS),
      (finish parts (finish parts fs).1).2 = 0 ∧
      (finish parts (finish parts fs).1).1 = (finish parts fs).1 := by
  intro parts fs
  have hdist := finishOutputs_pairwise_ne parts
  have hest := first_flush_establishes (finishOutputs parts) fs 0 hdist
  have hno := second_flush_noop (finishOutputs parts) (finish parts fs).1 0
    (fun p c hm => hest p c hm)
  show ((finishOutputs parts).foldl writeStep ((finish parts fs).1, 0)).2 = 0 ∧
    ((finishOutputs parts).foldl writeStep ((finish parts fs).1, 0)).1 = (finish parts fs).1
  rw [hno]
  exact ⟨rfl, rfl⟩

/-- C6 evaluated at the failing input: a writer holding one
generator-backed fragment `("m.inc", get_map_lines({"A": "1"}))`, flushed
twice with nothing submitted in between.  The first flush writes the
bannered `#define` line.  The second flush re-sorts the same tuples,
chains the now-exhausted generator, obtains banner-only content, finds it
different from the file, and rewrites the file truncated — one write, not
the zero writes the claim asserts, and the file is not left untouched. -/
theorem finish_second_flush_truncates :
    (finish [("m.inc", ["#define A 1"])] (fun _ => none)).1 "m.inc"
      = some (pyJoin (cxx_generated_warning ++ ["#define A 1"])) ∧
    (finish (exhaustedParts [("m.inc", ["#define A 1"])])
        ((finish [("m.inc", ["#define A 1"])] (fun _ => none)).1)).2 = 1 ∧
    (finish (exhaustedParts [("m.inc", ["#define A 1"])])
        ((finish [("m.inc", ["#define A 1"])] (fun _ => none)).1)).1 "m.inc"
      = some (pyJoin cxx_generated_warning) := by
  have h1 : finish [("m.inc", ["#define A 1"])] (fun _ => none)
      = (updateFS (fun _ => none) "m.inc"
          (pyJoin (cxx_generated_warning ++ ["#define A 1"])), 1) := rfl
  have hfs1 : (finish [("m.inc", ["#define A 1"])] (fun _ => none)).1 "m.inc"
      = some (pyJoin (cxx_generated_warning ++ ["#define A 1"])) := by
    rw [h1]
    exact updateFS_self (fun _ => none) "m.inc"
      (pyJoin (cxx_generated_warning ++ ["#define A 1"]))
  have hdiff : files_are_different
      (pyIterLines (pyJoin (cxx_generated_warning ++ ["#define A 1"])))
      (pySplitlines (pyJoin cxx_generated_warning)) = true :=
    (files_are_different_iff _ _).mpr (by decide)
  have h2 : write_if_different
      ((finish [("m.inc", ["#define A 1"])] (fun _ => none)).1) "m.inc"
      (pyJoin cxx_generated_warning)
      = (updateFS ((finish [("m.inc", ["#define A 1"])] (fun _ => none)).1)
          "m.inc" (pyJoin cxx_generated_warning), true) :=
    write_if_different_diff_eq _ hfs1 hdiff
  have h3 : finish (exhaustedParts [("m.inc", ["#define A 1"])])
      ((finish [("m.inc", ["#define A 1"])] (fun _ => none)).1)
      = (updateFS ((finish [("m.inc", ["#define A 1"])] (fun _ => none)).1)
          "m.inc" (pyJoin cxx_generated_warning), 1) := by
    show (finishOutputs (exhaustedParts [("m.inc", ["#define A 1"])])).foldl
      writeStep ((finish [("m.inc", ["#define A 1"])] (fun _ => none)).1, 0) = _
    rw [show finishOutputs (exhaustedParts [("m.inc", ["#define A 1"])])
        = [("m.inc", pyJoin cxx_generated_warning)] from rfl]
    rw [List.foldl_cons, List.foldl_nil]
    unfold writeStep
    rw [h2]
    rfl
  refine ⟨hfs1, ?_, ?_⟩
  · rw [h3]
  · rw [h3]
    exact updateFS_self ((finish [("m.inc", ["#define A 1"])] (fun _ => none)).1)
      "m.inc" (pyJoin cxx_generated_warning)

/-! ### The makefile fragment and the build-ID namespace -/

theorem ne_of_last_char {s t : String} (h : s.data.getLast? ≠ t.data.getLast?) :
    s ≠ t :=
  fun hc => h (by rw [hc])

theorem getLast?_append_str (a b : String) (c : Char)
    (hb : b.data.getLast? = some c) :
    (a ++ b).data.getLast? = some c := by
  rw [String.data_append, List.getLast?_append, hb]
  rfl

theorem makefile_last_char : makefile_file_name.data.getLast? = some 'k' :=
  getLast?_append_str _ _ 'k' (by decide)

theorem write_files_appended_ne_makefile (inc_dir : String) (gen : GenOutputs) :
    ∀ x ∈ (write_files_appended inc_dir gen).dropLast, x.1 ≠ makefile_file_name := by
  intro x hx
  rw [write_files_appended, List.dropLast_concat] at hx
  rcases List.mem_append.mp hx with hA | hB
  · simp only [List.mem_cons, List.not_mem_nil, or_false] at hA
    rcases hA with rfl | rfl | rfl | rfl | rfl | rfl
    · exact ne_of_last_char
        (by rw [getLast?_append_str _ _ 'c' (by decide), makefile_last_char]; decide)
    · exact ne_of_last_char
        (by rw [getLast?_append_str _ _ 'h' (by decide), makefile_last_char]; decide)
    · exact ne_of_last_char
        (by rw [getLast?_append_str _ _ 'c' (by decide), makefile_last_char]; decide)
    · exact ne_of_last_char
        (by rw [getLast?_append_str _ _ 'c' (by decide), makefile_last_char]; decide)
    · exact ne_of_last_char
        (by rw [getLast?_append_str _ _ 'c' (by decide), makefile_last_char]; decide)
    · exact ne_of_last_char
        (by rw [getLast?_append_str _ _ 'c' (by decide), makefile_last_char]; decide)
  · obtain ⟨m, _, rfl⟩ := List.mem_map.mp hB
    exact ne_of_last_char
      (by rw [getLast?_append_str _ _ 'c' (by decide), makefile_last_char]; decide)

/-- C9: each `write_files` invocation appends exactly one makefile
fragment; it is the last fragment, targets the fixed repository-root path
(which never has the build ID as a path segment), and every other
appended fragment targets a path under `{objdir}/{buildID}/inc`. -/
theorem write_files_fragments :
    ∀ (w : FileWriter) (cfg : List Nat) (gen : GenOutputs) (objdir : Option String),
      ((w.write_files cfg gen objdir).fileparts.drop w.fileparts.length).countP
          (fun x => decide (x.1 = makefile_file_name)) = 1 ∧
      ((w.write_files cfg gen objdir).fileparts.drop w.fileparts.length).getLast?
          = some (makefile_file_name, gen.makefile_lines) ∧
      (∀ x ∈ (w.write_files cfg gen objdir).fileparts.drop w.fileparts.length,
        x.1 ≠ makefile_file_name →
        ∃ sfx, x.1 = objdir.getD w.objdir_name ++ "/" ++ computeBuildID cfg
          ++ "/" ++ "inc" ++ "/" ++ sfx) ∧
      computeBuildID cfg ∉ pathSegments makefile_file_name := by
  intro w cfg gen objdir
  have hdrop : (w.write_files cfg gen objdir).fileparts.drop w.fileparts.length
      = write_files_appended
          (objdir.getD w.objdir_name ++ "/" ++ computeBuildID cfg ++ "/" ++ "inc") gen := by
    show (w.fileparts ++ _).drop w.fileparts.length = _
    rw [List.drop_left]
  refine ⟨?_, ?_, ?_, ?_⟩
  · rw [hdrop, write_files_appended, List.countP_append, List.countP_append]
    have h1 : ∀ (L : List (String × List String)),
        (∀ x ∈ L, x.1 ≠ makefile_file_name) →
        L.countP (fun x => decide (x.1 = makefile_file_name)) = 0 :=
      fun L hL => List.countP_eq_zero.mpr (fun a ha => by
        simpa using hL a ha)
    have hA := write_files_appended_ne_makefile
      (objdir.getD w.objdir_name ++ "/" ++ computeBuildID cfg ++ "/" ++ "inc") gen
    rw [write_files_appended, List.dropLast_concat] at hA
    rw [h1 _ (fun x hx => hA x (List.mem_append_left _ hx)),
        h1 _ (fun x hx => hA x (List.mem_append_right _ hx))]
    simp
  · rw [hdrop, write_files_appended, List.getLast?_append]
    rfl
  · intro x hx hne
    rw [hdrop, write_files_appended] at hx
    rcases List.mem_append.mp hx with hAB | hmk
    · rcases List.mem_append.mp hAB with hA | hB
      · simp only [List.mem_cons, List.not_mem_nil, or_false] at hA
        rcases hA with rfl | rfl | rfl | rfl | rfl | rfl
        · exact ⟨instantiation_file_name, rfl⟩
        · exact ⟨constants_file_name, rfl⟩
        · exact ⟨core_module_declaration_file_name, rfl⟩
        · exact ⟨core_module_definition_file_name, rfl⟩
        · exact ⟨cache_module_declaration_file_name, rfl⟩
        · exact ⟨cache_module_definition_file_name, rfl⟩
      · obtain ⟨m, _, rfl⟩ := List.mem_map.mp hB
        exact ⟨m.1 ++ ".inc", by rw [String.append_assoc]⟩
    · have hxmk : x = (makefile_file_name, gen.makefile_lines) := by simpa using hmk
      rw [hxmk] at hne
      exact absurd rfl hne
  · have hseg : pathSegments makefile_file_name
        = ["", "champsim", "_configuration.mk"] := rfl
    rw [hseg]
    intro hmem
    simp only [List.mem_cons, List.not_mem_nil, or_false] at hmem
    rcases hmem with h1 | h2 | h3
    · have hl := computeBuildID_length cfg
      rw [h1] at hl
      exact absurd hl (by decide)
    · have hp := computeBuildID_hex cfg 'p' (by rw [h2]; decide)
      exact absurd hp (by decide)
    · have hp := computeBuildID_hex cfg '_' (by rw [h3]; decide)
      exact absurd hp (by decide)

set_option maxRecDepth 100000 in
/-- C9 witness: for a concrete writer, configuration, and generator
outputs, the first appended fragment lies under the build-ID'd include
directory. -/
theorem write_files_fragments_witness :
    ∃ sfx, ("obj" ++ "/" ++ computeBuildID [] ++ "/" ++ "inc" ++ "/"
        ++ instantiation_file_name : String)
      = ("obj" : String) ++ "/" ++ computeBuildID [] ++ "/" ++ "inc" ++ "/" ++ sfx := by
  have hbid : computeBuildID [] = "7f9c2ba4" := rfl
  have h := (write_files_fragments
    { fileparts := [], bindir_name := "bin", objdir_name := "obj" } []
    { instantiation_lines := [], constants_lines := [], core_declarations := [],
      core_definitions := [], cache_declarations := [], cache_definitions := [],
      joined_modules := [], makefile_lines := [] } none).2.2.1
  exact h _ (List.mem_cons_self _ _)
    (by rw [hbid]; exact fun hc => absurd hc (by decide))

/-- C2: the change test of `files_are_different` — SequenceMatcher ratio
of the two per-line-stripped line lists being below `1.0` — is equivalent
to direct inequality of the two whitespace-trimmed line lists. -/
theorem files_are_different_equiv :
    ∀ rfp new_rfp : List String,
      (seqRatio (rfp.map pyStrip) (new_rfp.map pyStrip) < 1 ↔
        rfp.map pyStrip ≠ new_rfp.map pyStrip) ∧
      (files_are_different rfp new_rfp = true ↔
        rfp.map pyStrip ≠ new_rfp.map pyStrip) :=
  fun rfp new_rfp =>
    ⟨seqRatio_lt_one_iff (rfp.map pyStrip) (new_rfp.map pyStrip),
     files_are_different_iff rfp new_rfp⟩

/-- C2 witness: differing lines are flagged, lines differing only in
surrounding whitespace are not. -/
theorem files_are_different_equiv_witness :
    files_are_different ["A"] ["B"] = true ∧
    files_are_different ["A "] ["A"] = false := by
  constructor
  · exact (files_are_different_equiv ["A"] ["B"]).2.mpr (by decide)
  · by_contra hne
    rw [Bool.not_eq_false] at hne
    exact ((files_are_different_equiv ["A "] ["A"]).2.mp hne) (by decide)

set_option maxRecDepth 100000 in
/-- C7 witness: a concrete digest's characters are lowercase hex. -/
theorem computeBuildID_spec_witness :
    '5' ∈ ("0123456789abcdef" : String).data :=
  (computeBuildID_spec [97, 98, 99]).2.2.2.2 '5' (by
    have h : computeBuildID [97, 98, 99] = "5881092d" := rfl
    rw [h]
    decide)

end FileWrite
